import Mathlib

/-!
# Conversions between the tracing engine's model and the API model

A shallow embedding of `service/api/conversions.go`.

Conventions of the embedding:

* a Go pointer `*T` is an `Option T`; dereferencing `none` is the fault
  `Fault.nilDereference`;
* a Go `panic(msg)` is the fault `Fault.panic msg`; a function that can fault
  returns `Except Fault _`;
* a Go slice is a `List` (the nil slice is `[]`); a Go map is an `AList`;
* Go `int`, `int64` are `Int`, the unsigned types are `Nat`; the code only
  copies and compares them, it does no arithmetic on them.
-/

namespace Delve

/-! ## Faults -/

/-- The two ways in which the Go code can stop without returning. -/
inductive Fault where
  | nilDereference
  | panic (msg : String)
  deriving DecidableEq, Repr

/-! ## Load configurations -/

/-- The record `api.LoadConfig`: the limits a client may set. -/
structure LoadConfig where
  FollowPointers : Bool
  MaxVariableRecurse : Int
  MaxStringLen : Int
  MaxArrayValues : Int
  MaxStructFields : Int
  deriving DecidableEq, Repr

/-- The record `proc.LoadConfig`: the limits of the tracing engine, with the
map bucket limit that only the engine sets. -/
structure ProcLoadConfig where
  FollowPointers : Bool
  MaxVariableRecurse : Int
  MaxStringLen : Int
  MaxArrayValues : Int
  MaxStructFields : Int
  MaxMapBuckets : Int
  deriving DecidableEq, Repr

/-- `LoadConfigToProc` converts an `api.LoadConfig` to a `proc.LoadConfig`. -/
def LoadConfigToProc (cfg : Option LoadConfig) : Option ProcLoadConfig :=
  match cfg with
  | none => none
  | some cfg =>
    some {
      FollowPointers := cfg.FollowPointers
      MaxVariableRecurse := cfg.MaxVariableRecurse
      MaxStringLen := cfg.MaxStringLen
      MaxArrayValues := cfg.MaxArrayValues
      MaxStructFields := cfg.MaxStructFields
      MaxMapBuckets := 0 }

/-- `LoadConfigFromProc` converts a `proc.LoadConfig` to an `api.LoadConfig`. -/
def LoadConfigFromProc (cfg : Option ProcLoadConfig) : Option LoadConfig :=
  match cfg with
  | none => none
  | some cfg =>
    some {
      FollowPointers := cfg.FollowPointers
      MaxVariableRecurse := cfg.MaxVariableRecurse
      MaxStringLen := cfg.MaxStringLen
      MaxArrayValues := cfg.MaxArrayValues
      MaxStructFields := cfg.MaxStructFields }

/-! ## Breakpoints -/

/-- A parsed condition (`ast.Expr`), kept as the source text that
`printer.Fprint` writes for it. -/
structure AstExpr where
  src : String
  deriving DecidableEq, Repr

/-- What `printer.Fprint` leaves in the buffer: the source text of the
expression, and nothing for a nil expression (the call's error is dropped). -/
def printerFprint (e : Option AstExpr) : String :=
  match e with
  | none => ""
  | some e => e.src

/-- The function `strconv.Itoa`: the decimal form of an integer. -/
def Itoa (i : Int) : String := toString i

/-- The fields of `proc.Breakpoint` that the conversion reads. -/
structure ProcBreakpoint where
  Name : String
  LogicalID : Int
  FunctionName : String
  File : String
  Line : Int
  Addr : Nat
  Tracepoint : Bool
  TraceReturn : Bool
  Stacktrace : Int
  Goroutine : Bool
  Variables : List String
  LoadArgs : Option ProcLoadConfig
  LoadLocals : Option ProcLoadConfig
  TotalHitCount : Nat
  HitCount : AList (fun _ : Int => Nat)
  Cond : Option AstExpr

/-- The record `api.Breakpoint`: a logical breakpoint. -/
structure Breakpoint where
  ID : Int
  Name : String
  Addr : Nat
  Addrs : List Nat
  File : String
  Line : Int
  FunctionName : String
  Cond : String
  Tracepoint : Bool
  TraceReturn : Bool
  Goroutine : Bool
  Stacktrace : Int
  Variables : List String
  LoadArgs : Option LoadConfig
  LoadLocals : Option LoadConfig
  HitCount : AList (fun _ : String => Nat)
  TotalHitCount : Nat

/-- The loop `for idx := range bp.HitCount` of `ConvertBreakpoint`: every
context index of the input map is stored under its decimal string. -/
def convertHitCount (hc : AList (fun _ : Int => Nat)) : AList (fun _ : String => Nat) :=
  hc.keys.foldl
    (fun m idx => m.insert (Itoa idx) ((hc.lookup idx).getD 0))
    (∅ : AList (fun _ : String => Nat))

/-- `ConvertBreakpoint` converts from a `proc.Breakpoint` to an
`api.Breakpoint`. The argument is a pointer and the first field access
dereferences it. -/
def ConvertBreakpoint (bp : Option ProcBreakpoint) : Except Fault Breakpoint :=
  match bp with
  | none => .error .nilDereference
  | some bp =>
    .ok {
      Name := bp.Name
      ID := bp.LogicalID
      FunctionName := bp.FunctionName
      File := bp.File
      Line := bp.Line
      Addr := bp.Addr
      Tracepoint := bp.Tracepoint
      TraceReturn := bp.TraceReturn
      Stacktrace := bp.Stacktrace
      Goroutine := bp.Goroutine
      Variables := bp.Variables
      LoadArgs := LoadConfigFromProc bp.LoadArgs
      LoadLocals := LoadConfigFromProc bp.LoadLocals
      TotalHitCount := bp.TotalHitCount
      Addrs := [bp.Addr]
      HitCount := convertHitCount bp.HitCount
      Cond := printerFprint bp.Cond }

/-- The body of the `for _, bp := range bps` loop of `ConvertBreakpoints`,
run over the remaining input with the slice `r` built so far. -/
def ConvertBreakpoints.loop :
    List (Option ProcBreakpoint) → List Breakpoint → Except Fault (List Breakpoint)
  | [], r => .ok r
  | bp :: rest, r =>
    if h : 0 < r.length then
      let last := r[r.length - 1]
      match bp with
      | none => .error .nilDereference
      | some b =>
        if last.ID = b.LogicalID then
          ConvertBreakpoints.loop rest
            (r.set (r.length - 1) { last with Addrs := last.Addrs ++ [b.Addr] })
        else if last.ID > b.LogicalID then
          .error (.panic "input not sorted")
        else
          match ConvertBreakpoint bp with
          | .error e => .error e
          | .ok c => ConvertBreakpoints.loop rest (r ++ [c])
    else
      match ConvertBreakpoint bp with
      | .error e => .error e
      | .ok c => ConvertBreakpoints.loop rest (r ++ [c])

/-- `ConvertBreakpoints` converts a slice of physical breakpoints into a
slice of logical breakpoints. The input must be sorted by increasing
`LogicalID`. -/
def ConvertBreakpoints (bps : List (Option ProcBreakpoint)) : Except Fault (List Breakpoint) :=
  if bps.length ≤ 0 then
    .ok []
  else
    ConvertBreakpoints.loop bps []

/-! ## Variables -/

/-- The enumeration `reflect.Kind`. -/
inductive Kind where
  | Invalid | Bool | Int | Int8 | Int16 | Int32 | Int64
  | Uint | Uint8 | Uint16 | Uint32 | Uint64 | Uintptr
  | Float32 | Float64 | Complex64 | Complex128
  | Array | Chan | Func | Interface | Map | Ptr | Slice | String | Struct | UnsafePointer
  deriving DecidableEq, Repr

/-- The marker `proc.FloatSpecial` stored next to a float value. -/
inductive FloatSpecial where
  | FloatIsNormal | FloatIsNaN | FloatIsPosInf | FloatIsNegInf
  deriving DecidableEq, Repr

/-- A non-nil Go `error`, with the text its `Error()` method returns. -/
structure GoError where
  Error : String
  deriving DecidableEq, Repr

/-- What the conversion reads of a non-nil `godwarf.Type`: the name in its
common part and its string form. -/
structure GodwarfType where
  CommonName : String
  Str : String
  deriving DecidableEq, Repr

/-- The fields of `proc.Variable` that the conversion reads. `Val` is the type
of the non-nil values of the interface `constant.Value`. -/
structure ProcVariable (Val : Type) where
  Addr : Nat
  OnlyAddr : Bool
  Name : String
  DwarfType : Option GodwarfType
  RealType : Option GodwarfType
  Kind : Kind
  Value : Option Val
  FloatSpecial : FloatSpecial
  Len : Int
  Cap : Int
  Flags : Nat
  Base : Nat
  Unreadable : Option GoError
  LocationExpr : String
  DeclLine : Int
  Children : List (ProcVariable Val)

/-- The record `api.Variable`. -/
structure Variable where
  Name : String
  Addr : Nat
  OnlyAddr : Bool
  Type_ : String
  RealType : String
  Flags : Nat
  Kind : Kind
  Value : String
  Len : Int
  Cap : Int
  Children : List Variable
  Base : Nat
  Unreadable : String
  LocationExpr : String
  DeclLine : Int

/-- The zero value of `api.Variable`, as `make([]Variable, n)` fills a slice. -/
def Variable.zero : Variable :=
  { Name := "", Addr := 0, OnlyAddr := false, Type_ := "", RealType := "", Flags := 0,
    Kind := .Invalid, Value := "", Len := 0, Cap := 0, Children := [], Base := 0,
    Unreadable := "", LocationExpr := "", DeclLine := 0 }

/-- The functions of `go/constant`, `strconv` and `pkg/proc` that the
conversion calls, taken as parameters. `Flt` stands for `float64`. They are
total functions here: the conversion relies on the engine storing in `Value` a
constant of the kind that `Kind` announces, on which the Go functions return.

* `Float64Val x` is the first result of `constant.Float64Val(x)`;
* `FormatFloat f sz` is `strconv.FormatFloat(f, 'f', -1, sz)`;
* `StringVal x` is `constant.StringVal(x)`;
* `ValueString x` is `x.String()`, for a non-nil `x`;
* `Real x`, `Imag x` are `constant.Real(x)`, `constant.Imag(x)`;
* `ConstDescr v` is `v.ConstDescr()`. -/
structure Externals (Val Flt : Type) where
  Float64Val : Option Val → Flt
  FormatFloat : Flt → Nat → String
  StringVal : Option Val → String
  ValueString : Val → String
  Real : Option Val → Option Val
  Imag : Option Val → Option Val
  ConstDescr : ProcVariable Val → String

/-- The function `prettyTypeName`: the explicit name of the type if it has
one, else its string form, with `*void` spelled `unsafe.Pointer`. -/
def prettyTypeName (typ : Option GodwarfType) : String :=
  match typ with
  | none => ""
  | some typ =>
    if typ.CommonName ≠ "" then
      typ.CommonName
    else
      let r := typ.Str
      if r = "*void" then "unsafe.Pointer" else r

/-- The function `convertFloatValue`. It is called by `ConvertVar` only, on
the variable that `ConvertVar` has dereferenced. -/
def convertFloatValue {Val Flt : Type} (lib : Externals Val Flt) (v : ProcVariable Val)
    (sz : Nat) : String :=
  match v.FloatSpecial with
  | .FloatIsPosInf => "+Inf"
  | .FloatIsNegInf => "-Inf"
  | .FloatIsNaN => "NaN"
  | .FloatIsNormal =>
    let f := lib.Float64Val v.Value
    lib.FormatFloat f sz

mutual
/-- The body of `ConvertVar` on a dereferenced variable. The recursive call
`*ConvertVar(&v.Children[i])` takes the address of a slice element, which is
never nil, so it is this function again. -/
def ConvertVar.node {Val Flt : Type} (lib : Externals Val Flt) : ProcVariable Val → Variable
  | v@{ Children := children, .. } =>
    let r : Variable :=
      { Variable.zero with
        Addr := v.Addr
        OnlyAddr := v.OnlyAddr
        Name := v.Name
        Kind := v.Kind
        Len := v.Len
        Cap := v.Cap
        Flags := v.Flags
        Base := v.Base
        LocationExpr := v.LocationExpr
        DeclLine := v.DeclLine }
    let r := { r with Type_ := prettyTypeName v.DwarfType }
    let r := { r with RealType := prettyTypeName v.RealType }
    let r :=
      match v.Unreadable with
      | some err => { r with Unreadable := err.Error }
      | none => r
    let r :=
      match v.Value with
      | some value =>
        match v.Kind with
        | .Float32 => { r with Value := convertFloatValue lib v 32 }
        | .Float64 => { r with Value := convertFloatValue lib v 64 }
        | .String | .Func => { r with Value := lib.StringVal v.Value }
        | _ =>
          let cd := lib.ConstDescr v
          if cd ≠ "" then
            { r with Value := cd ++ " (" ++ lib.ValueString value ++ ")" }
          else
            { r with Value := lib.ValueString value }
      | none => r
    match v.Kind with
    | .Complex64 =>
      let r := { r with Len := 2 }
      let c0 := { Variable.zero with Name := "real", Kind := .Float32 }
      let c1 := { Variable.zero with Name := "imaginary", Kind := .Float32 }
      match v.Value with
      | some _ =>
        let real := lib.Float64Val (lib.Real v.Value)
        let c0 := { c0 with Value := lib.FormatFloat real 32 }
        let imag := lib.Float64Val (lib.Imag v.Value)
        let c1 := { c1 with Value := lib.FormatFloat imag 32 }
        { r with Children := [c0, c1] }
      | none =>
        { r with Children := [{ c0 with Value := "nil" }, { c1 with Value := "nil" }] }
    | .Complex128 =>
      let r := { r with Len := 2 }
      let c0 := { Variable.zero with Name := "real", Kind := .Float64 }
      let c1 := { Variable.zero with Name := "imaginary", Kind := .Float64 }
      match v.Value with
      | some _ =>
        let real := lib.Float64Val (lib.Real v.Value)
        let c0 := { c0 with Value := lib.FormatFloat real 64 }
        let imag := lib.Float64Val (lib.Imag v.Value)
        let c1 := { c1 with Value := lib.FormatFloat imag 64 }
        { r with Children := [c0, c1] }
      | none =>
        { r with Children := [{ c0 with Value := "nil" }, { c1 with Value := "nil" }] }
    | _ => { r with Children := ConvertVar.children lib children }
/-- The loop `for i := range v.Children` of `ConvertVar`. -/
def ConvertVar.children {Val Flt : Type} (lib : Externals Val Flt) :
    List (ProcVariable Val) → List Variable
  | [] => []
  | c :: cs => ConvertVar.node lib c :: ConvertVar.children lib cs
end

/-- `ConvertVar` converts from `proc.Variable` to `api.Variable`. The argument
is a pointer and the first field access dereferences it. -/
def ConvertVar {Val Flt : Type} (lib : Externals Val Flt) (v : Option (ProcVariable Val)) :
    Except Fault Variable :=
  match v with
  | none => .error .nilDereference
  | some v => .ok (ConvertVar.node lib v)

/-! ## Functions, locations and threads -/

/-- What the conversion reads of a `proc.Function`: its name, its entry
address and the result of its method `Optimized()`. -/
structure ProcFunction where
  Name : String
  Entry : Nat
  Optimized : Bool
  deriving DecidableEq, Repr

/-- The record `api.Function`. -/
structure Function where
  Name_ : String
  Value : Nat
  Type_ : Nat
  GoType : Nat
  Optimized : Bool
  deriving DecidableEq, Repr

/-- The record `proc.Location`. -/
structure ProcLocation where
  PC : Nat
  File : String
  Line : Int
  Fn : Option ProcFunction
  deriving DecidableEq, Repr

/-- The record `api.Location`. -/
structure Location where
  PC : Nat
  File : String
  Line : Int
  Function : Option Function
  deriving DecidableEq, Repr

/-- `ConvertFunction` converts from `proc.Function` to `api.Function`. -/
def ConvertFunction (fn : Option ProcFunction) : Option Function :=
  match fn with
  | none => none
  | some fn =>
    some {
      Name_ := fn.Name
      Type_ := 0
      Value := fn.Entry
      GoType := 0
      Optimized := fn.Optimized }

/-- `ConvertLocation` converts from `proc.Location` to `api.Location`. -/
def ConvertLocation (loc : ProcLocation) : Location :=
  { PC := loc.PC
    File := loc.File
    Line := loc.Line
    Function := ConvertFunction loc.Fn }

/-- The result of `th.Common().GetCurrentBreakpoint()`: the breakpoint pointer
and the flag `Active`. -/
structure BreakpointState where
  Breakpoint : Option ProcBreakpoint
  Active : Bool

/-- What the conversion reads of a `proc.G`. -/
structure ProcG where
  ID : Int
  deriving DecidableEq, Repr

/-- A `proc.Thread`, given by the results of the calls `ConvertThread` makes on
it: the two results of `th.Location()`, the result of
`th.Common().GetCurrentBreakpoint()`, the first result of `proc.GetG(th)` and
the result of `th.ThreadID()`. -/
structure ProcThread where
  LocationResult : Option ProcLocation
  LocationErr : Option GoError
  CurrentBreakpoint : BreakpointState
  G : Option ProcG
  ThreadID : Int

/-- The record `api.Thread`. -/
structure Thread where
  ID : Int
  PC : Nat
  File : String
  Line : Int
  Function : Option Function
  GoroutineID : Int
  Breakpoint : Option Breakpoint

/-- `ConvertThread` converts a `proc.Thread` into an API thread. The location
is read when `th.Location()` gave no error, through the pointer it returned;
the breakpoint is converted when the breakpoint state is active. -/
def ConvertThread (th : ProcThread) : Except Fault Thread :=
  let located : Except Fault (Option Function × String × Int × Nat) :=
    match th.LocationErr with
    | none =>
      match th.LocationResult with
      | none => .error .nilDereference
      | some loc => .ok (ConvertFunction loc.Fn, loc.File, loc.Line, loc.PC)
    | some _ => .ok (none, "", 0, 0)
  match located with
  | .error e => .error e
  | .ok (function, file, line, pc) =>
    let bps := th.CurrentBreakpoint
    let converted : Except Fault (Option Breakpoint) :=
      if bps.Active then
        match ConvertBreakpoint bps.Breakpoint with
        | .error e => .error e
        | .ok b => .ok (some b)
      else
        .ok none
    match converted with
    | .error e => .error e
    | .ok bp =>
      let gid : Int :=
        match th.G with
        | some g => g.ID
        | none => 0
      .ok {
        ID := th.ThreadID
        PC := pc
        File := file
        Line := line
        Function := function
        GoroutineID := gid
        Breakpoint := bp }

/-! ## Registers -/

/-- A non-nil `op.DwarfRegister`. -/
structure DwarfRegister where
  Uint64Val : Nat
  Bytes : List Nat
  deriving DecidableEq, Repr

/-- What the conversion reads of `op.DwarfRegisters`: the slice `Regs`, of
which it takes the length, and the method `Reg`, which gives the register of a
slot or nil. -/
structure DwarfRegisters where
  Regs : List (Option DwarfRegister)
  Reg : Nat → Option DwarfRegister

/-- What the conversion reads of a `proc.Arch`: the method
`DwarfRegisterToString`, which gives the name of a register, whether it is a
floating point register, and its string form. -/
structure Arch where
  DwarfRegisterToString : Int → DwarfRegister → String × Bool × String

/-- The record `api.Register`. -/
structure Register where
  Name : String
  Value : String
  DwarfNumber : Int
  deriving DecidableEq, Repr

/-- The body of the loop `for i := range in.Regs` of `ConvertRegisters`, for
the slot `i` and the slice `out` built so far. -/
def ConvertRegisters.step (regs : DwarfRegisters) (arch : Arch) (floatingPoint : Bool)
    (out : List Register) (i : Nat) : List Register :=
  match regs.Reg i with
  | none => out
  | some reg =>
    match arch.DwarfRegisterToString i reg with
    | (name, fp, repr) =>
      if !floatingPoint && fp then
        out
      else
        out ++ [{ Name := name, Value := repr, DwarfNumber := i }]

/-- `ConvertRegisters` converts the registers of a slice to `api.Register`. -/
def ConvertRegisters (regs : DwarfRegisters) (arch : Arch) (floatingPoint : Bool) :
    List Register :=
  (List.range regs.Regs.length).foldl (ConvertRegisters.step regs arch floatingPoint) []

/-! ## Definitions for the statements -/

/-- The states the loop of `ConvertBreakpoints` goes through on sorted input:
`Reach pre r` says that `r` is the slice built after the records `pre`. -/
inductive Reach : List ProcBreakpoint → List Breakpoint → Prop
  | first (b : ProcBreakpoint) (c : Breakpoint) :
      ConvertBreakpoint (some b) = .ok c → Reach [b] [c]
  | same (pre : List ProcBreakpoint) (r0 : List Breakpoint) (last : Breakpoint)
      (b : ProcBreakpoint) :
      Reach pre (r0 ++ [last]) → last.ID = b.LogicalID →
      Reach (pre ++ [b]) (r0 ++ [{ last with Addrs := last.Addrs ++ [b.Addr] }])
  | fresh (pre : List ProcBreakpoint) (r0 : List Breakpoint) (last : Breakpoint)
      (b : ProcBreakpoint) (c : Breakpoint) :
      Reach pre (r0 ++ [last]) → last.ID < b.LogicalID →
      ConvertBreakpoint (some b) = .ok c →
      Reach (pre ++ [b]) (r0 ++ [last] ++ [c])

/-- The input is sorted by non-decreasing `LogicalID`. -/
def SortedByLogicalID (bps : List ProcBreakpoint) : Prop :=
  List.Sorted (· ≤ ·) (bps.map (·.LogicalID))

instance (bps : List ProcBreakpoint) : Decidable (SortedByLogicalID bps) := by
  unfold SortedByLogicalID; infer_instance

/-- The addresses of the input records that carry the logical id `id`, in
input order. -/
def addrsOf (bps : List ProcBreakpoint) (id : Int) : List Nat :=
  (bps.filter (fun b => decide (b.LogicalID = id))).map (·.Addr)

/-- What holds of every reachable state: the IDs are strictly increasing, they
are the logical ids read so far, and every record holds the addresses of its
logical id. -/
structure Inv (pre : List ProcBreakpoint) (r : List Breakpoint) : Prop where
  ids_lt : (r.map (·.ID)).Pairwise (· < ·)
  ids_mem : ∀ i, i ∈ r.map (·.ID) ↔ i ∈ pre.map (·.LogicalID)
  addrs : ∀ c ∈ r, c.Addrs = addrsOf pre c.ID

/-- A sample physical breakpoint with the given logical id and address. -/
def physical (id : Int) (addr : Nat) : ProcBreakpoint :=
  { Name := "", LogicalID := id, FunctionName := "main.f", File := "main.go", Line := 7,
    Addr := addr, Tracepoint := false, TraceReturn := false, Stacktrace := 0,
    Goroutine := false, Variables := [], LoadArgs := none, LoadLocals := none,
    TotalHitCount := 0, HitCount := ∅, Cond := none }

/-- The input has an adjacent pair out of order. -/
def HasDescent (bps : List ProcBreakpoint) : Prop :=
  ∃ i, ∃ h : i + 1 < bps.length, bps[i + 1].LogicalID < bps[i].LogicalID

/-- The input of the aggregation example: logical ids 1, 1, 2, 2, 2, 3. -/
def sampleBreakpoints : List ProcBreakpoint :=
  [physical 1 10, physical 1 11, physical 2 12, physical 2 13, physical 2 14, physical 3 15]

mutual
/-- All the nodes of a variable tree, the root first. -/
def ProcVariable.nodes {Val : Type} : ProcVariable Val → List (ProcVariable Val)
  | v@{ Children := children, .. } => v :: ProcVariable.nodesOfList children
/-- All the nodes of the trees of a list. -/
def ProcVariable.nodesOfList {Val : Type} : List (ProcVariable Val) → List (ProcVariable Val)
  | [] => []
  | c :: cs => ProcVariable.nodes c ++ ProcVariable.nodesOfList cs
end

/-- The shape of a tree of variables: the name of every node and the order of
its children. -/
inductive Shape where
  | node (name : String) (children : List Shape) : Shape

mutual
/-- The shape of an input tree. -/
def ProcVariable.shape {Val : Type} : ProcVariable Val → Shape
  | v@{ Children := children, .. } => .node v.Name (ProcVariable.shapes children)
/-- The shapes of a list of input trees. -/
def ProcVariable.shapes {Val : Type} : List (ProcVariable Val) → List Shape
  | [] => []
  | c :: cs => ProcVariable.shape c :: ProcVariable.shapes cs
end

mutual
/-- The shape of an output tree. -/
def Variable.shape : Variable → Shape
  | v@{ Children := children, .. } => .node v.Name (Variable.shapes children)
/-- The shapes of a list of output trees. -/
def Variable.shapes : List Variable → List Shape
  | [] => []
  | c :: cs => Variable.shape c :: Variable.shapes cs
end

/-- A sample instance of the external functions, over constants kept as
strings. -/
def sampleExternals : Externals String String :=
  { Float64Val := fun x => x.getD "0"
    FormatFloat := fun f _ => f
    StringVal := fun x => x.getD ""
    ValueString := fun x => x
    Real := fun x => x
    Imag := fun x => x
    ConstDescr := fun _ => "" }

/-- A sample variable of the given kind, with no value and no children. -/
def sampleVariable (kind : Kind) : ProcVariable String :=
  { Addr := 4096, OnlyAddr := false, Name := "x", DwarfType := none, RealType := none,
    Kind := kind, Value := none, FloatSpecial := .FloatIsNormal, Len := 0, Cap := 0,
    Flags := 0, Base := 0, Unreadable := none, LocationExpr := "", DeclLine := 3,
    Children := [] }

/-- A sample float variable that holds not-a-number, with a stored payload. -/
def sampleNaN : ProcVariable String :=
  { sampleVariable .Float64 with FloatSpecial := .FloatIsNaN, Value := some "0" }

/-- No node of the tree has a complex kind. -/
def ProcVariable.NoComplex {Val : Type} (v : ProcVariable Val) : Prop :=
  ∀ n ∈ v.nodes, n.Kind ≠ .Complex64 ∧ n.Kind ≠ .Complex128

/-- A sample tree without complex kinds. -/
def sampleTree : ProcVariable String :=
  { sampleVariable .Struct with
    Children :=
      [ { sampleVariable .Float32 with Name := "f", Value := some "1.5" },
        { sampleVariable .Slice with
          Name := "s", Children := [{ sampleVariable .Int with Name := "i" }] } ] }

/-- The slot `i` is one that `ConvertRegisters` has to emit: it has a backing
value, and it is not classified as floating point or the caller opted in. -/
def emittedSlot (regs : DwarfRegisters) (arch : Arch) (floatingPoint : Bool) (i : Nat) : Bool :=
  match regs.Reg i with
  | none => false
  | some reg => floatingPoint || !(arch.DwarfRegisterToString i reg).2.1

/-- The register that the architecture describes for the slot `i` holding
`reg`. -/
def registerOf (arch : Arch) (i : Nat) (reg : DwarfRegister) : Register :=
  { Name := (arch.DwarfRegisterToString i reg).1
    Value := (arch.DwarfRegisterToString i reg).2.2
    DwarfNumber := i }

/-- A sample thread whose location is resolved, with no active breakpoint and
a null breakpoint pointer. -/
def sampleThread : ProcThread :=
  { LocationResult := some { PC := 4198400, File := "main.go", Line := 12, Fn := none }
    LocationErr := none
    CurrentBreakpoint := { Breakpoint := none, Active := false }
    G := some { ID := 5 }
    ThreadID := 1001 }

/-- A sample thread whose location resolution fails, stopped at an active
breakpoint. -/
def sampleLostThread : ProcThread :=
  { LocationResult := none
    LocationErr := some { Error := "could not find location" }
    CurrentBreakpoint := { Breakpoint := some (physical 1 4198400), Active := true }
    G := none
    ThreadID := 1002 }

/-- A sample physical breakpoint with hit counts: `total` hits in all, all of
them in the context `ctx`. -/
def physicalHit (id : Int) (addr : Nat) (ctx : Int) (total : Nat) : ProcBreakpoint :=
  { physical id addr with
    TotalHitCount := total
    HitCount := (∅ : AList (fun _ : Int => Nat)).insert ctx total }

/-- Three physical breakpoints with different hit counts: two instances of the
logical breakpoint 1, hit 3 times in context 0 and 5 times in context 1, and
one instance of the logical breakpoint 2, hit 7 times in context 4. -/
def sampleHits : List ProcBreakpoint :=
  [physicalHit 1 10 0 3, physicalHit 1 11 1 5, physicalHit 2 12 4 7]

/-- A sample unreadable variable, with a value and a child. -/
def sampleUnreadable : ProcVariable String :=
  { sampleVariable .Int with
    Value := some "7"
    Unreadable := some { Error := "could not read memory" }
    Children := [sampleVariable .Bool] }

/-- The record `ConvertBreakpoints` returns for the two physical breakpoints
`physical 4 100` and `physical 4 108` of one logical breakpoint. -/
def sampleRecord : Breakpoint :=
  { ID := 4, Name := "", Addr := 100, Addrs := [100, 108], File := "main.go", Line := 7,
    FunctionName := "main.f", Cond := "", Tracepoint := false, TraceReturn := false,
    Goroutine := false, Stacktrace := 0, Variables := [], LoadArgs := none,
    LoadLocals := none, HitCount := ∅, TotalHitCount := 0 }

/-- The number that a list of decimal digit characters writes. -/
def decimalValue (l : List Char) : Nat :=
  l.foldl (fun a c => 10 * a + (c.toNat - 48)) 0

/-! ## The loop of `ConvertBreakpoints` -/

theorem getElem_snoc_last {α : Type} (r0 : List α) (x : α)
    (h : (r0 ++ [x]).length - 1 < (r0 ++ [x]).length) :
    (r0 ++ [x])[(r0 ++ [x]).length - 1] = x := by
  have : (r0 ++ [x]).length - 1 = r0.length := by simp
  simp [this]

theorem set_snoc_last {α : Type} (r0 : List α) (x y : α) :
    (r0 ++ [x]).set ((r0 ++ [x]).length - 1) y = r0 ++ [y] := by
  have : (r0 ++ [x]).length - 1 = r0.length := by simp
  rw [this]
  simp

theorem loop_first (b : ProcBreakpoint) (rest : List (Option ProcBreakpoint)) :
    ∃ c, ConvertBreakpoint (some b) = .ok c ∧
      ConvertBreakpoints.loop (some b :: rest) [] = ConvertBreakpoints.loop rest [c] :=
  ⟨_, rfl, rfl⟩

theorem loop_same (b : ProcBreakpoint) (rest : List (Option ProcBreakpoint))
    (r0 : List Breakpoint) (last : Breakpoint) (h : last.ID = b.LogicalID) :
    ConvertBreakpoints.loop (some b :: rest) (r0 ++ [last]) =
      ConvertBreakpoints.loop rest (r0 ++ [{ last with Addrs := last.Addrs ++ [b.Addr] }]) := by
  have hlen : 0 < (r0 ++ [last]).length := by simp
  rw [ConvertBreakpoints.loop]
  simp only [hlen, dite_true, getElem_snoc_last, h, if_true, set_snoc_last]

theorem loop_new (b : ProcBreakpoint) (rest : List (Option ProcBreakpoint))
    (r0 : List Breakpoint) (last : Breakpoint) (h : last.ID < b.LogicalID) :
    ∃ c, ConvertBreakpoint (some b) = .ok c ∧
      ConvertBreakpoints.loop (some b :: rest) (r0 ++ [last]) =
        ConvertBreakpoints.loop rest (r0 ++ [last] ++ [c]) := by
  refine ⟨_, rfl, ?_⟩
  have hlen : 0 < (r0 ++ [last]).length := by simp
  have h1 : ¬ last.ID = b.LogicalID := ne_of_lt h
  have h2 : ¬ last.ID > b.LogicalID := not_lt.mpr (le_of_lt h)
  rw [ConvertBreakpoints.loop]
  simp only [hlen, dite_true, getElem_snoc_last, h1, h2, if_false]
  rfl

theorem loop_unsorted (b : ProcBreakpoint) (rest : List (Option ProcBreakpoint))
    (r0 : List Breakpoint) (last : Breakpoint) (h : b.LogicalID < last.ID) :
    ConvertBreakpoints.loop (some b :: rest) (r0 ++ [last]) =
      .error (.panic "input not sorted") := by
  have hlen : 0 < (r0 ++ [last]).length := by simp
  have h1 : ¬ last.ID = b.LogicalID := ne_of_gt h
  have h2 : last.ID > b.LogicalID := h
  rw [ConvertBreakpoints.loop]
  simp only [hlen, dite_true, getElem_snoc_last, h1, h2, if_false, if_true]

theorem ConvertBreakpoint_ID {b : ProcBreakpoint} {c : Breakpoint}
    (h : ConvertBreakpoint (some b) = .ok c) : c.ID = b.LogicalID := by
  simp only [ConvertBreakpoint, Except.ok.injEq] at h
  rw [← h]

theorem ConvertBreakpoint_Addrs {b : ProcBreakpoint} {c : Breakpoint}
    (h : ConvertBreakpoint (some b) = .ok c) : c.Addrs = [b.Addr] := by
  simp only [ConvertBreakpoint, Except.ok.injEq] at h
  rw [← h]

/-- In a reachable state the slice ends with a record whose ID is the
`LogicalID` of the last record read. -/
theorem Reach.last_eq {pre : List ProcBreakpoint} {r : List Breakpoint} (h : Reach pre r) :
    ∃ p0 pl r0 last, pre = p0 ++ [pl] ∧ r = r0 ++ [last] ∧ last.ID = pl.LogicalID := by
  cases h with
  | first b c hc => exact ⟨[], b, [], c, rfl, rfl, ConvertBreakpoint_ID hc⟩
  | same pre r0 last b _ hid => exact ⟨pre, b, r0, _, rfl, rfl, hid⟩
  | fresh pre r0 last b c _ _ hc => exact ⟨pre, b, r0 ++ [last], c, rfl, rfl, ConvertBreakpoint_ID hc⟩

/-- On sorted input the loop runs to its end through reachable states. -/
theorem loop_of_sorted (rest pre : List ProcBreakpoint) (r : List Breakpoint)
    (hr : Reach pre r) (hs : SortedByLogicalID (pre ++ rest)) :
    ∃ out, ConvertBreakpoints.loop (rest.map some) r = .ok out ∧ Reach (pre ++ rest) out := by
  induction rest generalizing pre r with
  | nil => exact ⟨r, rfl, by simpa using hr⟩
  | cons b rest ih =>
    obtain ⟨p0, pl, r0, last, hpre, hrr, hid⟩ := hr.last_eq
    have hle : last.ID ≤ b.LogicalID := by
      rw [hid]
      have hs2 := hs
      simp only [SortedByLogicalID, List.Sorted, List.map_append, List.map_cons,
        List.pairwise_append] at hs2
      apply hs2.2.2 pl.LogicalID _ b.LogicalID (by simp)
      rw [hpre]; simp
    have hs3 : SortedByLogicalID ((pre ++ [b]) ++ rest) := by simpa using hs
    subst hrr
    rcases eq_or_lt_of_le hle with heq | hlt
    · have hstep := loop_same b (rest.map some) r0 last heq
      obtain ⟨out, hout, hreach⟩ := ih (pre ++ [b]) _ (Reach.same pre r0 last b hr heq) hs3
      refine ⟨out, ?_, by simpa using hreach⟩
      rw [List.map_cons, hstep, hout]
    · obtain ⟨c, hc, hstep⟩ := loop_new b (rest.map some) r0 last hlt
      obtain ⟨out, hout, hreach⟩ := ih (pre ++ [b]) _ (Reach.fresh pre r0 last b c hr hlt hc) hs3
      refine ⟨out, ?_, by simpa using hreach⟩
      rw [List.map_cons, hstep, hout]

/-- On sorted non-null input `ConvertBreakpoints` returns, and what it returns
is a reachable state for the whole input (or the nil slice for no input). -/
theorem ConvertBreakpoints_of_sorted (bps : List ProcBreakpoint) (hs : SortedByLogicalID bps) :
    ∃ r, ConvertBreakpoints (bps.map some) = .ok r ∧ (bps = [] ∧ r = [] ∨ Reach bps r) := by
  cases bps with
  | nil => exact ⟨[], rfl, Or.inl ⟨rfl, rfl⟩⟩
  | cons b rest =>
    obtain ⟨c, hc, hstep⟩ := loop_first b (rest.map some)
    obtain ⟨out, hout, hreach⟩ := loop_of_sorted rest [b] [c] (Reach.first b c hc) hs
    refine ⟨out, ?_, Or.inr hreach⟩
    simp only [ConvertBreakpoints, List.map_cons, List.length_cons]
    rw [if_neg (by omega), hstep, hout]

theorem addrsOf_append (xs ys : List ProcBreakpoint) (id : Int) :
    addrsOf (xs ++ ys) id = addrsOf xs id ++ addrsOf ys id := by
  simp [addrsOf]

theorem addrsOf_single_eq (b : ProcBreakpoint) (id : Int) (h : b.LogicalID = id) :
    addrsOf [b] id = [b.Addr] := by
  simp [addrsOf, h]

theorem addrsOf_single_ne (b : ProcBreakpoint) (id : Int) (h : b.LogicalID ≠ id) :
    addrsOf [b] id = [] := by
  simp [addrsOf, h]

theorem addrsOf_eq_nil (bps : List ProcBreakpoint) (id : Int)
    (h : id ∉ bps.map (·.LogicalID)) : addrsOf bps id = [] := by
  simp only [addrsOf, List.map_eq_nil_iff, List.filter_eq_nil_iff, decide_eq_true_eq]
  intro b hb heq
  exact h (by rw [← heq]; exact List.mem_map_of_mem _ hb)

theorem Inv.le_last {pre : List ProcBreakpoint} {r0 : List Breakpoint} {last : Breakpoint}
    (h : Inv pre (r0 ++ [last])) : ∀ c ∈ r0 ++ [last], c.ID ≤ last.ID := by
  intro c hc
  have hp := h.ids_lt
  simp only [List.map_append, List.map_cons, List.map_nil, List.pairwise_append] at hp
  rcases List.mem_append.mp hc with h0 | h1
  · exact le_of_lt (hp.2.2 c.ID (List.mem_map_of_mem _ h0) last.ID (by simp))
  · simp only [List.mem_singleton] at h1
    rw [h1]

theorem Inv.lt_last {pre : List ProcBreakpoint} {r0 : List Breakpoint} {last : Breakpoint}
    (h : Inv pre (r0 ++ [last])) : ∀ c ∈ r0, c.ID < last.ID := by
  intro c hc
  have hp := h.ids_lt
  simp only [List.map_append, List.map_cons, List.map_nil, List.pairwise_append] at hp
  exact hp.2.2 c.ID (List.mem_map_of_mem _ hc) last.ID (by simp)

theorem Reach.inv {pre : List ProcBreakpoint} {r : List Breakpoint} (h : Reach pre r) :
    Inv pre r := by
  induction h with
  | first b c hc =>
    have hid := ConvertBreakpoint_ID hc
    have had := ConvertBreakpoint_Addrs hc
    refine ⟨by simp, by simp [hid], ?_⟩
    intro c1 hc1
    simp only [List.mem_singleton] at hc1
    subst hc1
    rw [had, addrsOf_single_eq b _ hid.symm]
  | same pre r0 last b _ hid ih =>
    refine ⟨?_, ?_, ?_⟩
    · simpa using ih.ids_lt
    · intro i
      have hm := ih.ids_mem i
      simp only [List.map_append, List.map_cons, List.map_nil, List.mem_append,
        List.mem_singleton] at hm ⊢
      constructor
      · intro hi
        exact Or.inl (hm.mp hi)
      · rintro (hi | hi)
        · exact hm.mpr hi
        · exact Or.inr (by rw [hi, hid])
    · intro c hc
      rcases List.mem_append.mp hc with h0 | h1
      · have hlt := ih.lt_last c h0
        have hne : b.LogicalID ≠ c.ID := by rw [← hid]; exact ne_of_gt hlt
        rw [addrsOf_append, addrsOf_single_ne b _ hne, List.append_nil]
        exact ih.addrs c (List.mem_append_left _ h0)
      · simp only [List.mem_singleton] at h1
        subst h1
        have hl := ih.addrs last (by simp)
        simp only
        rw [addrsOf_append, addrsOf_single_eq b _ hid.symm, hl]
  | fresh pre r0 last b c _ hlt hc ih =>
    have hid := ConvertBreakpoint_ID hc
    have had := ConvertBreakpoint_Addrs hc
    refine ⟨?_, ?_, ?_⟩
    · rw [List.map_append, List.pairwise_append]
      refine ⟨ih.ids_lt, by simp, ?_⟩
      intro x hx y hy
      simp only [List.map_cons, List.map_nil, List.mem_singleton] at hy
      obtain ⟨c1, hc1, rfl⟩ := List.mem_map.mp hx
      rw [hy, hid]
      exact lt_of_le_of_lt (ih.le_last c1 hc1) hlt
    · intro i
      have hm := ih.ids_mem i
      simp only [List.map_append, List.map_cons, List.map_nil, List.mem_append,
        List.mem_singleton] at hm ⊢
      rw [hm, hid]
    · intro c1 hc1
      rcases List.mem_append.mp hc1 with h0 | h1
      · have hle := ih.le_last c1 h0
        have hne : b.LogicalID ≠ c1.ID := ne_of_gt (lt_of_le_of_lt hle hlt)
        rw [addrsOf_append, addrsOf_single_ne b _ hne, List.append_nil]
        exact ih.addrs c1 h0
      · simp only [List.mem_singleton] at h1
        subst h1
        have hnot : c1.ID ∉ pre.map (·.LogicalID) := by
          intro hmem
          obtain ⟨c2, hc2, hc2id⟩ := List.mem_map.mp ((ih.ids_mem c1.ID).mpr hmem)
          have hle := ih.le_last c2 hc2
          rw [hc2id, hid] at hle
          exact absurd hlt (not_lt.mpr hle)
        rw [addrsOf_append, addrsOf_eq_nil pre _ hnot, addrsOf_single_eq b _ hid.symm, had]
        rfl

theorem sorted_iff_adjacent (l : List Int) :
    List.Sorted (· ≤ ·) l ↔ ∀ i, ∀ h : i + 1 < l.length, l[i] ≤ l[i + 1] := by
  induction l with
  | nil => simp
  | cons a t ih =>
    cases t with
    | nil => simp
    | cons b t =>
      rw [List.sorted_cons, ih]
      constructor
      · rintro ⟨ha, hadj⟩ i h
        cases i with
        | zero => exact ha b (by simp)
        | succ i => exact hadj i (by simpa using h)
      · intro hadj
        have hrest : ∀ i, ∀ h : i + 1 < (b :: t).length, (b :: t)[i] ≤ (b :: t)[i + 1] :=
          fun i h => hadj (i + 1) (by simpa using h)
        refine ⟨?_, hrest⟩
        have hab : a ≤ b := hadj 0 (by simp)
        have hs : List.Sorted (· ≤ ·) (b :: t) := ih.mpr hrest
        intro x hx
        rcases List.mem_cons.mp hx with rfl | hx
        · exact hab
        · exact le_trans hab (List.rel_of_sorted_cons hs x hx)

theorem not_sorted_iff_descent (bps : List ProcBreakpoint) :
    ¬ SortedByLogicalID bps ↔ HasDescent bps := by
  unfold SortedByLogicalID HasDescent
  rw [sorted_iff_adjacent]
  constructor
  · intro h
    by_contra hne
    apply h
    intro i hi
    have hi2 : i + 1 < bps.length := by simpa using hi
    simp only [List.getElem_map]
    by_contra hlt
    exact hne ⟨i, hi2, not_le.mp hlt⟩
  · rintro ⟨i, hi, hlt⟩ h
    have := h i (by simpa using hi)
    simp only [List.getElem_map] at this
    exact absurd hlt (not_lt.mpr this)

/-- On input that stops being sorted the loop panics. -/
theorem loop_of_unsorted (rest pre : List ProcBreakpoint) (r : List Breakpoint)
    (hr : Reach pre r) (hs : SortedByLogicalID pre) (hn : ¬ SortedByLogicalID (pre ++ rest)) :
    ConvertBreakpoints.loop (rest.map some) r = .error (.panic "input not sorted") := by
  induction rest generalizing pre r with
  | nil => exact absurd (by simpa using hs) hn
  | cons b rest ih =>
    obtain ⟨p0, pl, r0, last, hpre, hrr, hid⟩ := hr.last_eq
    subst hrr
    rcases lt_or_le b.LogicalID last.ID with hlt | hle
    · rw [List.map_cons]
      exact loop_unsorted b (rest.map some) r0 last hlt
    · have hs2 : SortedByLogicalID (pre ++ [b]) := by
        have hs1 := hs
        rw [hpre] at hs1 ⊢
        simp only [SortedByLogicalID, List.Sorted, List.map_append, List.map_cons, List.map_nil,
          List.pairwise_append] at hs1 ⊢
        refine ⟨⟨hs1.1, by simp, hs1.2.2⟩, by simp, ?_⟩
        intro x hx y hy
        simp only [List.mem_singleton] at hy
        subst hy
        rcases List.mem_append.mp hx with hx | hx
        · have := hs1.2.2 x hx pl.LogicalID (by simp)
          rw [← hid] at this
          exact le_trans this hle
        · simp only [List.mem_singleton] at hx
          rw [hx, ← hid]
          exact hle
      have hn2 : ¬ SortedByLogicalID ((pre ++ [b]) ++ rest) := by simpa using hn
      rcases eq_or_lt_of_le hle with heq | hlt
      · rw [List.map_cons, loop_same b (rest.map some) r0 last heq]
        exact ih (pre ++ [b]) _ (Reach.same pre r0 last b hr heq) hs2 hn2
      · obtain ⟨c, hc, hstep⟩ := loop_new b (rest.map some) r0 last hlt
        rw [List.map_cons, hstep]
        exact ih (pre ++ [b]) _ (Reach.fresh pre r0 last b c hr hlt hc) hs2 hn2

theorem ConvertBreakpoints_of_unsorted (bps : List ProcBreakpoint)
    (hn : ¬ SortedByLogicalID bps) :
    ConvertBreakpoints (bps.map some) = .error (.panic "input not sorted") := by
  cases bps with
  | nil => exact absurd (by simp [SortedByLogicalID]) hn
  | cons b rest =>
    obtain ⟨c, hc, hstep⟩ := loop_first b (rest.map some)
    simp only [ConvertBreakpoints, List.map_cons, List.length_cons]
    rw [if_neg (by omega), hstep]
    exact loop_of_unsorted rest [b] [c] (Reach.first b c hc) (by simp [SortedByLogicalID]) hn

/-! ## Lemmas on `ConvertVar` -/

theorem ConvertVar.children_eq_map {Val Flt : Type} (lib : Externals Val Flt)
    (cs : List (ProcVariable Val)) :
    ConvertVar.children lib cs = cs.map (ConvertVar.node lib) := by
  induction cs with
  | nil => rfl
  | cons c cs ih => simp [ConvertVar.children, ih]

theorem ConvertVar.node_Name {Val Flt : Type} (lib : Externals Val Flt) (v : ProcVariable Val) :
    (ConvertVar.node lib v).Name = v.Name := by
  cases v with
  | mk a oa n dt rt k val fs len cap fl base unr le dl cs =>
    simp only [ConvertVar.node]
    cases k <;> cases val <;> cases unr <;> simp <;> split <;> rfl

theorem ConvertVar.node_Children {Val Flt : Type} (lib : Externals Val Flt)
    (v : ProcVariable Val) (h64 : v.Kind ≠ .Complex64) (h128 : v.Kind ≠ .Complex128) :
    (ConvertVar.node lib v).Children = v.Children.map (ConvertVar.node lib) := by
  cases v with
  | mk a oa n dt rt k val fs len cap fl base unr le dl cs =>
    simp only [ConvertVar.node, ConvertVar.children_eq_map]

theorem ProcVariable.nodes_eq {Val : Type} (v : ProcVariable Val) :
    v.nodes = v :: ProcVariable.nodesOfList v.Children := by
  cases v; rfl

theorem ProcVariable.shape_eq {Val : Type} (v : ProcVariable Val) :
    v.shape = .node v.Name (ProcVariable.shapes v.Children) := by
  cases v; rfl

theorem Variable.shape_out_eq (r : Variable) :
    r.shape = .node r.Name (Variable.shapes r.Children) := by
  cases r; rfl

mutual
theorem ConvertVar.shape_node {Val Flt : Type} (lib : Externals Val Flt) :
    ∀ v : ProcVariable Val, v.NoComplex → (ConvertVar.node lib v).shape = v.shape
  | .mk a oa n dt rt k val fs len cap fl base unr le dl cs, h => by
    have hroot := h _ (by rw [ProcVariable.nodes_eq]; exact List.mem_cons_self _ _)
    have hcs : ∀ m ∈ ProcVariable.nodesOfList cs, m.Kind ≠ .Complex64 ∧ m.Kind ≠ .Complex128 := by
      intro m hm
      exact h m (by rw [ProcVariable.nodes_eq]; exact List.mem_cons_of_mem _ hm)
    rw [Variable.shape_out_eq, ProcVariable.shape_eq, ConvertVar.node_Name,
      ConvertVar.node_Children lib _ hroot.1 hroot.2]
    exact congrArg _ (ConvertVar.shape_children lib cs hcs)
theorem ConvertVar.shape_children {Val Flt : Type} (lib : Externals Val Flt) :
    ∀ cs : List (ProcVariable Val),
      (∀ m ∈ ProcVariable.nodesOfList cs, m.Kind ≠ .Complex64 ∧ m.Kind ≠ .Complex128) →
      Variable.shapes (cs.map (ConvertVar.node lib)) = ProcVariable.shapes cs
  | [], _ => rfl
  | c :: cs, h => by
    have hc : c.NoComplex := fun m hm =>
      h m (by simp only [ProcVariable.nodesOfList]; exact List.mem_append_left _ hm)
    have hcs : ∀ m ∈ ProcVariable.nodesOfList cs, m.Kind ≠ .Complex64 ∧ m.Kind ≠ .Complex128 :=
      fun m hm =>
        h m (by simp only [ProcVariable.nodesOfList]; exact List.mem_append_right _ hm)
    simp only [List.map_cons, Variable.shapes, ProcVariable.shapes]
    rw [ConvertVar.shape_node lib c hc, ConvertVar.shape_children lib cs hcs]
end


/-! ## Lemmas on `ConvertRegisters` -/

theorem ConvertRegisters.step_eq (regs : DwarfRegisters) (arch : Arch) (floatingPoint : Bool)
    (out : List Register) (i : Nat) :
    ConvertRegisters.step regs arch floatingPoint out i =
      out ++ (match regs.Reg i with
        | none => []
        | some reg =>
          if emittedSlot regs arch floatingPoint i then [registerOf arch i reg] else []) := by
  unfold ConvertRegisters.step emittedSlot registerOf
  cases hreg : regs.Reg i with
  | none => simp
  | some reg =>
    rcases harch : arch.DwarfRegisterToString i reg with ⟨name, fp, repr⟩
    cases floatingPoint <;> cases fp <;> simp [harch]

theorem ConvertRegisters.foldl_eq (regs : DwarfRegisters) (arch : Arch) (floatingPoint : Bool)
    (l : List Nat) (out : List Register) :
    l.foldl (ConvertRegisters.step regs arch floatingPoint) out =
      out ++ l.filterMap (fun i =>
        match regs.Reg i with
        | none => none
        | some reg =>
          if emittedSlot regs arch floatingPoint i then some (registerOf arch i reg) else none) := by
  induction l generalizing out with
  | nil => simp
  | cons i l ih =>
    rw [List.foldl_cons, ih, ConvertRegisters.step_eq]
    cases hreg : regs.Reg i with
    | none => simp [List.filterMap_cons, hreg]
    | some reg =>
      by_cases he : emittedSlot regs arch floatingPoint i <;>
        simp [List.filterMap_cons, hreg, he]

/-! ## What `ConvertBreakpoints` returns -/

theorem loop_nil_fault (rest : List (Option ProcBreakpoint)) (r : List Breakpoint) :
    ConvertBreakpoints.loop (none :: rest) r = .error .nilDereference := by
  rw [ConvertBreakpoints.loop]
  split <;> rfl

theorem loop_cons_ok (b : ProcBreakpoint) (rest : List (Option ProcBreakpoint))
    (r out : List Breakpoint) (h : ConvertBreakpoints.loop (some b :: rest) r = .ok out) :
    ∃ r2, ConvertBreakpoints.loop rest r2 = .ok out := by
  rcases List.eq_nil_or_concat r with hr | ⟨r0, last, hr⟩
  · subst hr
    obtain ⟨c, _, hstep⟩ := loop_first b rest
    exact ⟨[c], by rw [← hstep]; exact h⟩
  · rw [List.concat_eq_append] at hr
    subst hr
    rcases lt_trichotomy last.ID b.LogicalID with hlt | heq | hgt
    · obtain ⟨c, _, hstep⟩ := loop_new b rest r0 last hlt
      exact ⟨_, by rw [← hstep]; exact h⟩
    · exact ⟨_, by rw [← loop_same b rest r0 last heq]; exact h⟩
    · rw [loop_unsorted b rest r0 last hgt] at h
      exact Except.noConfusion h

/-- When the loop returns, no element of the input is a null pointer. -/
theorem loop_ok_nonnull (bps : List (Option ProcBreakpoint)) (r out : List Breakpoint)
    (h : ConvertBreakpoints.loop bps r = .ok out) : ∃ l : List ProcBreakpoint, bps = l.map some := by
  induction bps generalizing r with
  | nil => exact ⟨[], rfl⟩
  | cons bp rest ih =>
    cases bp with
    | none =>
      rw [loop_nil_fault] at h
      exact Except.noConfusion h
    | some b =>
      obtain ⟨r2, h2⟩ := loop_cons_ok b rest r out h
      obtain ⟨l, hl⟩ := ih r2 h2
      exact ⟨b :: l, by rw [hl]; rfl⟩

/-- When `ConvertBreakpoints` returns, the input has no null pointer, it is
sorted, and the result is the nil slice for no input or else a reachable state
of the loop. -/
theorem ConvertBreakpoints_returns (bps : List (Option ProcBreakpoint)) (r : List Breakpoint)
    (h : ConvertBreakpoints bps = .ok r) :
    ∃ l : List ProcBreakpoint, bps = l.map some ∧ SortedByLogicalID l ∧
      (l = [] ∧ r = [] ∨ Reach l r) := by
  have hl : ∃ l : List ProcBreakpoint, bps = l.map some := by
    unfold ConvertBreakpoints at h
    split at h
    · rename_i hlen
      have : bps = [] := List.length_eq_zero.mp (Nat.le_zero.mp hlen)
      exact ⟨[], by rw [this]; rfl⟩
    · exact loop_ok_nonnull bps [] r h
  obtain ⟨l, rfl⟩ := hl
  have hs : SortedByLogicalID l := by
    by_contra hn
    rw [ConvertBreakpoints_of_unsorted l hn] at h
    exact Except.noConfusion h
  obtain ⟨r2, hr2, hcases⟩ := ConvertBreakpoints_of_sorted l hs
  rw [h] at hr2
  have : r = r2 := by
    simpa using hr2
  subst this
  exact ⟨l, rfl, hs, hcases⟩

theorem ConvertBreakpoint_Addr {b : ProcBreakpoint} {c : Breakpoint}
    (h : ConvertBreakpoint (some b) = .ok c) : c.Addr = b.Addr := by
  simp only [ConvertBreakpoint, Except.ok.injEq] at h
  rw [← h]

/-- In a reachable state every record starts its `Addrs` with its `Addr`. -/
theorem Reach.addrs_head {pre : List ProcBreakpoint} {r : List Breakpoint} (h : Reach pre r) :
    ∀ c ∈ r, ∃ t, c.Addrs = c.Addr :: t := by
  induction h with
  | first b c hc =>
    intro c1 hc1
    simp only [List.mem_singleton] at hc1
    subst hc1
    exact ⟨[], by rw [ConvertBreakpoint_Addrs hc, ConvertBreakpoint_Addr hc]⟩
  | same pre r0 last b _ hid ih =>
    intro c hc
    rcases List.mem_append.mp hc with h0 | h1
    · exact ih c (List.mem_append_left _ h0)
    · simp only [List.mem_singleton] at h1
      subst h1
      obtain ⟨t, ht⟩ := ih last (by simp)
      exact ⟨t ++ [b.Addr], by simp only [ht, List.cons_append]⟩
  | fresh pre r0 last b c _ hlt hc ih =>
    intro c1 hc1
    rcases List.mem_append.mp hc1 with h0 | h1
    · exact ih c1 h0
    · simp only [List.mem_singleton] at h1
      subst h1
      exact ⟨[], by rw [ConvertBreakpoint_Addrs hc, ConvertBreakpoint_Addr hc]⟩

/-- In a reachable state the address lists, put end to end, are the addresses
read so far, and there are no more records than records read. -/
theorem Reach.addrs_flatten {pre : List ProcBreakpoint} {r : List Breakpoint}
    (h : Reach pre r) :
    (r.map (·.Addrs)).flatten = pre.map (·.Addr) ∧ r.length ≤ pre.length := by
  induction h with
  | first b c hc =>
    simp [ConvertBreakpoint_Addrs hc]
  | same pre r0 last b _ hid ih =>
    obtain ⟨ih1, ih2⟩ := ih
    simp only [List.map_append, List.map_cons, List.map_nil, List.flatten_append,
      List.flatten_cons, List.flatten_nil, List.append_nil, List.length_append,
      List.length_cons, List.length_nil] at ih1 ih2 ⊢
    refine ⟨?_, by omega⟩
    rw [← ih1, List.append_assoc]
  | fresh pre r0 last b c _ hlt hc ih =>
    obtain ⟨ih1, ih2⟩ := ih
    simp only [List.map_append, List.map_cons, List.map_nil, List.flatten_append,
      List.flatten_cons, List.flatten_nil, List.append_nil, List.length_append,
      List.length_cons, List.length_nil] at ih1 ih2 ⊢
    refine ⟨?_, by omega⟩
    rw [← ih1, ConvertBreakpoint_Addrs hc]

/-- In a reachable state every record is the conversion of the first record
read with its logical id, but for `Addrs`. -/
theorem Reach.first_instance {pre : List ProcBreakpoint} {r : List Breakpoint}
    (h : Reach pre r) :
    ∀ c ∈ r, ∃ b c0, pre.find? (fun x => decide (x.LogicalID = c.ID)) = some b ∧
      ConvertBreakpoint (some b) = .ok c0 ∧ c = { c0 with Addrs := c.Addrs } := by
  induction h with
  | first b c hc =>
    intro c1 hc1
    simp only [List.mem_singleton] at hc1
    subst hc1
    refine ⟨b, c1, ?_, hc, rfl⟩
    simp [List.find?_cons, ConvertBreakpoint_ID hc]
  | same pre r0 last b _ hid ih =>
    intro c hc
    rcases List.mem_append.mp hc with h0 | h1
    · obtain ⟨b0, c0, hf, hc0, heq⟩ := ih c (List.mem_append_left _ h0)
      exact ⟨b0, c0, by rw [List.find?_append, hf]; rfl, hc0, heq⟩
    · simp only [List.mem_singleton] at h1
      subst h1
      obtain ⟨b0, c0, hf, hc0, heq⟩ := ih last (by simp)
      refine ⟨b0, c0, by rw [List.find?_append, hf]; rfl, hc0, ?_⟩
      rw [heq]
  | fresh pre r0 last b c hreach hlt hc ih =>
    intro c1 hc1
    rcases List.mem_append.mp hc1 with h0 | h1
    · obtain ⟨b0, c0, hf, hc0, heq⟩ := ih c1 h0
      exact ⟨b0, c0, by rw [List.find?_append, hf]; rfl, hc0, heq⟩
    · simp only [List.mem_singleton] at h1
      subst h1
      have hinv := hreach.inv
      have hid := ConvertBreakpoint_ID hc
      have hnone : pre.find? (fun x => decide (x.LogicalID = c1.ID)) = none := by
        rw [List.find?_eq_none]
        intro x hx hxe
        simp only [decide_eq_true_eq] at hxe
        have hmem : x.LogicalID ∈ pre.map (·.LogicalID) := List.mem_map_of_mem _ hx
        obtain ⟨c2, hc2, hc2id⟩ := List.mem_map.mp ((hinv.ids_mem x.LogicalID).mpr hmem)
        have hle := hinv.le_last c2 hc2
        rw [hc2id, hxe, hid] at hle
        exact absurd hlt (not_lt.mpr hle)
      refine ⟨b, c1, ?_, hc, rfl⟩
      rw [List.find?_append, hnone]
      simp [List.find?_cons, hid]

/-! ## `Itoa` and the hit count map -/

theorem digitChar_value (k : Nat) (h : k < 10) : (Nat.digitChar k).toNat - 48 = k := by
  interval_cases k <;> rfl

theorem digitChar_ne_minus (k : Nat) (h : k < 10) : Nat.digitChar k ≠ '-' := by
  interval_cases k <;> decide

theorem decimalValue_append_single (l : List Char) (c : Char) :
    decimalValue (l ++ [c]) = 10 * decimalValue l + (c.toNat - 48) := by
  simp [decimalValue, List.foldl_append]

theorem toDigitsCore_spec (fuel : Nat) : ∀ (n : Nat) (ds : List Char), n < fuel →
    ∃ l, Nat.toDigitsCore 10 fuel n ds = l ++ ds ∧ l ≠ [] ∧ (∀ c ∈ l, c ≠ '-') ∧
      decimalValue l = n := by
  induction fuel with
  | zero => intro n ds h; omega
  | succ fuel ih =>
    intro n ds h
    have hd : n % 10 < 10 := Nat.mod_lt _ (by decide)
    rw [Nat.toDigitsCore]
    by_cases h0 : n / 10 = 0
    · simp only [h0, if_true]
      refine ⟨[Nat.digitChar (n % 10)], rfl, by simp, ?_, ?_⟩
      · intro c hc
        simp only [List.mem_singleton] at hc
        rw [hc]
        exact digitChar_ne_minus _ hd
      · have : decimalValue [Nat.digitChar (n % 10)] = (Nat.digitChar (n % 10)).toNat - 48 := by
          simp [decimalValue]
        rw [this, digitChar_value _ hd]
        omega
    · simp only [h0, if_false]
      have hlt : n / 10 < fuel := by omega
      obtain ⟨l, hl, hne, hc, hv⟩ := ih (n / 10) (Nat.digitChar (n % 10) :: ds) hlt
      refine ⟨l ++ [Nat.digitChar (n % 10)], by rw [hl]; simp, by simp, ?_, ?_⟩
      · intro c hcm
        rcases List.mem_append.mp hcm with h1 | h1
        · exact hc c h1
        · simp only [List.mem_singleton] at h1
          rw [h1]
          exact digitChar_ne_minus _ hd
      · rw [decimalValue_append_single, hv, digitChar_value _ hd]
        omega

theorem toDigits_spec (n : Nat) :
    Nat.toDigits 10 n ≠ [] ∧ (∀ c ∈ Nat.toDigits 10 n, c ≠ '-') ∧
      decimalValue (Nat.toDigits 10 n) = n := by
  obtain ⟨l, hl, hne, hc, hv⟩ := toDigitsCore_spec (n + 1) n [] (Nat.lt_succ_self n)
  rw [List.append_nil] at hl
  unfold Nat.toDigits
  rw [hl]
  exact ⟨hne, hc, hv⟩

theorem Itoa_ofNat (n : Nat) : (Itoa (Int.ofNat n)).data = Nat.toDigits 10 n := rfl

theorem Itoa_negSucc (n : Nat) : (Itoa (Int.negSucc n)).data = '-' :: Nat.toDigits 10 (n + 1) := rfl

theorem Itoa_injective (i j : Int) (h : Itoa i = Itoa j) : i = j := by
  have hd := congrArg String.data h
  cases i with
  | ofNat m =>
    cases j with
    | ofNat n =>
      rw [Itoa_ofNat, Itoa_ofNat] at hd
      have : m = n := by rw [← (toDigits_spec m).2.2, ← (toDigits_spec n).2.2, hd]
      rw [this]
    | negSucc n =>
      rw [Itoa_ofNat, Itoa_negSucc] at hd
      exact absurd rfl ((toDigits_spec m).2.1 '-' (by rw [hd]; exact List.mem_cons_self _ _))
  | negSucc m =>
    cases j with
    | ofNat n =>
      rw [Itoa_ofNat, Itoa_negSucc] at hd
      exact absurd rfl ((toDigits_spec n).2.1 '-' (by rw [← hd]; exact List.mem_cons_self _ _))
    | negSucc n =>
      rw [Itoa_negSucc, Itoa_negSucc] at hd
      have hd2 := List.tail_eq_of_cons_eq hd
      have : m + 1 = n + 1 := by
        rw [← (toDigits_spec (m + 1)).2.2, ← (toDigits_spec (n + 1)).2.2, hd2]
      have : m = n := by omega
      rw [this]

theorem convertHitCount_foldl_lookup (hc : AList (fun _ : Int => Nat)) (k : Int) :
    ∀ (ks : List Int) (m0 : AList (fun _ : String => Nat)),
      (ks.foldl (fun m idx => m.insert (Itoa idx) ((hc.lookup idx).getD 0)) m0).lookup (Itoa k) =
        if k ∈ ks then some ((hc.lookup k).getD 0) else m0.lookup (Itoa k) := by
  intro ks
  induction ks with
  | nil => intro m0; simp
  | cons a ks ih =>
    intro m0
    rw [List.foldl_cons, ih]
    by_cases hka : k = a
    · subst hka
      simp [AList.lookup_insert]
    · have hne : Itoa k ≠ Itoa a := fun h => hka (Itoa_injective k a h)
      by_cases hks : k ∈ ks
      · simp [hks]
      · simp [hks, hka, AList.lookup_insert_ne hne]

theorem convertHitCount_foldl_mem (hc : AList (fun _ : Int => Nat)) (s : String) :
    ∀ (ks : List Int) (m0 : AList (fun _ : String => Nat)),
      s ∈ ks.foldl (fun m idx => m.insert (Itoa idx) ((hc.lookup idx).getD 0)) m0 ↔
        s ∈ m0 ∨ ∃ k ∈ ks, s = Itoa k := by
  intro ks
  induction ks with
  | nil => intro m0; simp
  | cons a ks ih =>
    intro m0
    rw [List.foldl_cons, ih, AList.mem_insert]
    constructor
    · rintro ((h | h) | ⟨k, hk, h⟩)
      · exact Or.inr ⟨a, List.mem_cons_self _ _, h⟩
      · exact Or.inl h
      · exact Or.inr ⟨k, List.mem_cons_of_mem _ hk, h⟩
    · rintro (h | ⟨k, hk, h⟩)
      · exact Or.inl (Or.inr h)
      · rcases List.mem_cons.mp hk with rfl | hk
        · exact Or.inl (Or.inl h)
        · exact Or.inr ⟨k, hk, h⟩

theorem convertHitCount_lookup (hc : AList (fun _ : Int => Nat)) (k : Int) :
    (convertHitCount hc).lookup (Itoa k) = hc.lookup k := by
  unfold convertHitCount
  rw [convertHitCount_foldl_lookup]
  by_cases hk : k ∈ hc.keys
  · rw [if_pos hk]
    have hsome : (hc.lookup k).isSome := AList.lookup_isSome.mpr (AList.mem_keys.mpr hk)
    obtain ⟨v, hv⟩ := Option.isSome_iff_exists.mp hsome
    rw [hv]
    rfl
  · rw [if_neg hk]
    have hnone : hc.lookup k = none :=
      AList.lookup_eq_none.mpr (fun h => hk (AList.mem_keys.mp h))
    rw [hnone]
    exact AList.lookup_eq_none.mpr (AList.not_mem_empty _)

theorem convertHitCount_keys (hc : AList (fun _ : Int => Nat)) (s : String) :
    s ∈ (convertHitCount hc).keys ↔ ∃ k ∈ hc.keys, s = Itoa k := by
  rw [← AList.mem_keys]
  unfold convertHitCount
  rw [convertHitCount_foldl_mem]
  constructor
  · rintro (h | h)
    · exact absurd h (AList.not_mem_empty _)
    · exact h
  · exact Or.inr

theorem convertHitCount_length (hc : AList (fun _ : Int => Nat)) :
    (convertHitCount hc).keys.length = hc.keys.length := by
  have hinj : Function.Injective Itoa := fun i j h => Itoa_injective i j h
  have hnd : (hc.keys.map Itoa).Nodup := hc.keys_nodup.map hinj
  have hperm : List.Perm (convertHitCount hc).keys (hc.keys.map Itoa) :=
    (List.perm_ext_iff_of_nodup (convertHitCount hc).keys_nodup hnd).mpr (fun s => by
      rw [convertHitCount_keys, List.mem_map]
      constructor
      · rintro ⟨k, hk, h⟩
        exact ⟨k, hk, h.symm⟩
      · rintro ⟨k, hk, h⟩
        exact ⟨k, hk, h.symm⟩)
  rw [hperm.length_eq, List.length_map]

/-! ## The records and the distinct logical ids -/

/-- The IDs of a strictly increasing slice that has the logical ids of sorted
input are those ids with the repetitions removed. -/
theorem Inv.ids_eq_dedup {bps : List ProcBreakpoint} {r : List Breakpoint}
    (hinv : Inv bps r) (hs : SortedByLogicalID bps) :
    r.map (·.ID) = (bps.map (·.LogicalID)).dedup := by
  have h1 : List.Sorted (· < ·) (r.map (·.ID)) := hinv.ids_lt
  have h2 : List.Sorted (· < ·) ((bps.map (·.LogicalID)).dedup) :=
    List.Sorted.lt_of_le (List.Pairwise.sublist (List.dedup_sublist _) hs)
      (List.nodup_dedup _)
  have hp : List.Perm (r.map (·.ID)) ((bps.map (·.LogicalID)).dedup) :=
    (List.perm_ext_iff_of_nodup h1.nodup (List.nodup_dedup _)).mpr
      (fun i => by rw [List.mem_dedup]; exact hinv.ids_mem i)
  exact List.eq_of_perm_of_sorted hp h1 h2

/-- A slice whose records are all given by their ID is the image of its IDs. -/
theorem map_eq_map_ids {α : Type} (r : List Breakpoint) (g : Breakpoint → α) (f : Int → α)
    (h : ∀ c ∈ r, g c = f c.ID) : r.map g = (r.map (·.ID)).map f := by
  rw [List.map_map]
  exact List.map_congr_left h

/-! ## The claims -/

/-- C1: on non-null input sorted by non-decreasing `LogicalID`,
`ConvertBreakpoints` returns one record per distinct `LogicalID` of the input
(the IDs of the records are the input ids with repetitions removed), and the
IDs of the records are strictly increasing. -/
theorem ConvertBreakpoints_one_record_per_id (bps : List ProcBreakpoint)
    (hs : SortedByLogicalID bps) :
    ∃ r, ConvertBreakpoints (bps.map some) = .ok r ∧
      r.map (·.ID) = (bps.map (·.LogicalID)).dedup ∧
      (r.map (·.ID)).Pairwise (· < ·) ∧
      (∀ i, i ∈ r.map (·.ID) ↔ i ∈ bps.map (·.LogicalID)) := by
  obtain ⟨r, hr, hcases⟩ := ConvertBreakpoints_of_sorted bps hs
  refine ⟨r, hr, ?_⟩
  rcases hcases with ⟨hb, hr0⟩ | hreach
  · subst hb; subst hr0; simp
  · have hinv := hreach.inv
    refine ⟨?_, hinv.ids_lt, hinv.ids_mem⟩
    have h1 : List.Sorted (· < ·) (r.map (·.ID)) := hinv.ids_lt
    have h2 : List.Sorted (· < ·) ((bps.map (·.LogicalID)).dedup) :=
      List.Sorted.lt_of_le (List.Pairwise.sublist (List.dedup_sublist _) hs)
        (List.nodup_dedup _)
    have hp : List.Perm (r.map (·.ID)) ((bps.map (·.LogicalID)).dedup) :=
      (List.perm_ext_iff_of_nodup h1.nodup (List.nodup_dedup _)).mpr
        (fun i => by rw [List.mem_dedup]; exact hinv.ids_mem i)
    exact List.eq_of_perm_of_sorted hp h1 h2

theorem ConvertBreakpoints_one_record_per_id_witness :
    SortedByLogicalID sampleBreakpoints ∧
    ∃ r, ConvertBreakpoints (sampleBreakpoints.map some) = .ok r ∧
      r.map (·.ID) = [1, 2, 3] ∧
      (r.map (·.ID)).Pairwise (· < ·) ∧
      (∀ i, i ∈ r.map (·.ID) ↔ i ∈ [1, 1, 2, 2, 2, 3]) :=
  ⟨by decide, ConvertBreakpoints_one_record_per_id sampleBreakpoints (by decide)⟩

/-- C2: on non-null input sorted by non-decreasing `LogicalID`,
`ConvertBreakpoints` returns one record for every distinct `LogicalID`, and the
`Addrs` of every record is the list of the `Addr` of the input records with
the `LogicalID` of that record, in input order; so the address lists of the
result are, id by id, the addresses of the input records with that id. -/
theorem ConvertBreakpoints_addrs (bps : List ProcBreakpoint) (hs : SortedByLogicalID bps) :
    ∃ r, ConvertBreakpoints (bps.map some) = .ok r ∧
      r.map (·.ID) = (bps.map (·.LogicalID)).dedup ∧
      (∀ c ∈ r, c.Addrs =
        (bps.filter (fun b => decide (b.LogicalID = c.ID))).map (·.Addr)) ∧
      r.map (·.Addrs) =
        (bps.map (·.LogicalID)).dedup.map
          (fun id => (bps.filter (fun b => decide (b.LogicalID = id))).map (·.Addr)) := by
  obtain ⟨r, hr, hcases⟩ := ConvertBreakpoints_of_sorted bps hs
  refine ⟨r, hr, ?_⟩
  rcases hcases with ⟨hb, hr0⟩ | hreach
  · subst hb; subst hr0; simp
  · have hinv := hreach.inv
    have hids := hinv.ids_eq_dedup hs
    refine ⟨hids, hinv.addrs, ?_⟩
    rw [← hids]
    exact map_eq_map_ids r (·.Addrs) (addrsOf bps) hinv.addrs

theorem ConvertBreakpoints_addrs_witness :
    SortedByLogicalID sampleBreakpoints ∧
    ∃ r, ConvertBreakpoints (sampleBreakpoints.map some) = .ok r ∧
      r.map (·.ID) = [1, 2, 3] ∧
      (∀ c ∈ r, c.Addrs =
        (sampleBreakpoints.filter (fun b => decide (b.LogicalID = c.ID))).map (·.Addr)) ∧
      r.map (·.Addrs) = [[10, 11], [12, 13, 14], [15]] :=
  ⟨by decide, ConvertBreakpoints_addrs sampleBreakpoints (by decide)⟩

/-- C3: on non-null input `ConvertBreakpoints` panics with "input not sorted"
exactly when some adjacent pair of the input is out of order, that is exactly
when the input is not sorted by non-decreasing `LogicalID`; otherwise it
returns a result. Input with logical ids 2, 1 panics. -/
theorem ConvertBreakpoints_panics_iff_unsorted (bps : List ProcBreakpoint) :
    (ConvertBreakpoints (bps.map some) = .error (.panic "input not sorted") ↔
      ∃ i, ∃ h : i + 1 < bps.length, bps[i + 1].LogicalID < bps[i].LogicalID) ∧
    (ConvertBreakpoints (bps.map some) = .error (.panic "input not sorted") ↔
      ¬ SortedByLogicalID bps) ∧
    ((∃ r, ConvertBreakpoints (bps.map some) = .ok r) ↔ SortedByLogicalID bps) ∧
    (∀ a b : Nat, ConvertBreakpoints [some (physical 2 a), some (physical 1 b)] =
      .error (.panic "input not sorted")) := by
  have hpanic : ConvertBreakpoints (bps.map some) = .error (.panic "input not sorted") ↔
      ¬ SortedByLogicalID bps := by
    constructor
    · intro he hs
      obtain ⟨r, hr, _⟩ := ConvertBreakpoints_of_sorted bps hs
      rw [hr] at he
      exact Except.noConfusion he
    · exact ConvertBreakpoints_of_unsorted bps
  refine ⟨?_, hpanic, ?_, ?_⟩
  · rw [hpanic, not_sorted_iff_descent]; rfl
  · constructor
    · rintro ⟨r, hr⟩
      by_contra hn
      rw [ConvertBreakpoints_of_unsorted bps hn] at hr
      exact Except.noConfusion hr
    · intro hs
      obtain ⟨r, hr, _⟩ := ConvertBreakpoints_of_sorted bps hs
      exact ⟨r, hr⟩
  · intro a b
    rfl

/-- C4: for a variable of kind Complex64 or Complex128, with or without a
value and whatever its children, `ConvertVar` returns a record with exactly
two children, named "real" and "imaginary" in that order, with `Len` 2, both
children of kind Float32 for Complex64 and Float64 for Complex128. -/
theorem ConvertVar_complex_children {Val Flt : Type} (lib : Externals Val Flt)
    (v : ProcVariable Val) (hk : v.Kind = .Complex64 ∨ v.Kind = .Complex128) :
    ∃ r re im, ConvertVar lib (some v) = .ok r ∧ r.Children = [re, im] ∧
      r.Children.length = 2 ∧ re.Name = "real" ∧ im.Name = "imaginary" ∧ r.Len = 2 ∧
      (v.Kind = .Complex64 → re.Kind = .Float32 ∧ im.Kind = .Float32) ∧
      (v.Kind = .Complex128 → re.Kind = .Float64 ∧ im.Kind = .Float64) := by
  cases v with
  | mk a oa n dt rt k val fs len cap fl base unr le dl cs =>
    simp only at hk
    rcases hk with hk | hk <;> subst hk <;> cases val <;>
      simp only [ConvertVar, ConvertVar.node] <;>
      exact ⟨_, _, _, rfl, rfl, rfl, rfl, rfl, rfl, by simp, by simp⟩

theorem ConvertVar_complex_children_witness :
    (({ sampleVariable .Complex128 with
        Value := some "(1 + 2i)", Children := [sampleVariable .Int] } :
        ProcVariable String).Kind = .Complex64 ∨
      ({ sampleVariable .Complex128 with
        Value := some "(1 + 2i)", Children := [sampleVariable .Int] } :
        ProcVariable String).Kind = .Complex128) ∧
    ∃ r re im,
      ConvertVar sampleExternals
        (some { sampleVariable .Complex128 with
          Value := some "(1 + 2i)", Children := [sampleVariable .Int] }) = .ok r ∧
      r.Children = [re, im] ∧
      r.Children.length = 2 ∧ re.Name = "real" ∧ im.Name = "imaginary" ∧ r.Len = 2 ∧
      (Kind.Complex128 = .Complex64 → re.Kind = .Float32 ∧ im.Kind = .Float32) ∧
      (Kind.Complex128 = .Complex128 → re.Kind = .Float64 ∧ im.Kind = .Float64) :=
  ⟨Or.inr rfl,
   ConvertVar_complex_children sampleExternals
    { sampleVariable .Complex128 with
      Value := some "(1 + 2i)", Children := [sampleVariable .Int] } (Or.inr rfl)⟩

/-- C5: for a variable of kind Complex64 or Complex128 with no value, both
children of the record `ConvertVar` returns have the value string "nil". -/
theorem ConvertVar_complex_nil {Val Flt : Type} (lib : Externals Val Flt)
    (v : ProcVariable Val) (hk : v.Kind = .Complex64 ∨ v.Kind = .Complex128)
    (hv : v.Value = none) :
    ∃ r re im, ConvertVar lib (some v) = .ok r ∧ r.Children = [re, im] ∧
      re.Value = "nil" ∧ im.Value = "nil" := by
  cases v with
  | mk a oa n dt rt k val fs len cap fl base unr le dl cs =>
    simp only at hk hv
    subst hv
    rcases hk with hk | hk <;> subst hk <;>
      simp only [ConvertVar, ConvertVar.node] <;>
      exact ⟨_, _, _, rfl, rfl, rfl, rfl⟩

theorem ConvertVar_complex_nil_witness :
    ((sampleVariable .Complex64).Kind = .Complex64 ∨
      (sampleVariable .Complex64).Kind = .Complex128) ∧
    (sampleVariable .Complex64).Value = none ∧
    ∃ r re im, ConvertVar sampleExternals (some (sampleVariable .Complex64)) = .ok r ∧
      r.Children = [re, im] ∧ re.Value = "nil" ∧ im.Value = "nil" :=
  ⟨Or.inl rfl, rfl,
   ConvertVar_complex_nil sampleExternals (sampleVariable .Complex64) (Or.inl rfl) rfl⟩

/-- C6: on a tree without complex kinds `ConvertVar` returns a tree of the same
shape (same names, same number and order of children at every level), and at
every node the children of the output are the conversions of the children of
the input, in order. -/
theorem ConvertVar_preserves_shape {Val Flt : Type} (lib : Externals Val Flt)
    (v : ProcVariable Val) (h : v.NoComplex) :
    ∃ r, ConvertVar lib (some v) = .ok r ∧ r.shape = v.shape ∧
      ∀ n ∈ v.nodes,
        (ConvertVar.node lib n).Children = n.Children.map (ConvertVar.node lib) ∧
        (ConvertVar.node lib n).Children.length = n.Children.length :=
  ⟨ConvertVar.node lib v, rfl, ConvertVar.shape_node lib v h, fun n hn => by
    have hc := ConvertVar.node_Children lib n (h n hn).1 (h n hn).2
    exact ⟨hc, by rw [hc, List.length_map]⟩⟩

theorem ConvertVar_preserves_shape_witness :
    sampleTree.NoComplex ∧
    ∃ r, ConvertVar sampleExternals (some sampleTree) = .ok r ∧ r.shape = sampleTree.shape ∧
      ∀ n ∈ sampleTree.nodes,
        (ConvertVar.node sampleExternals n).Children =
          n.Children.map (ConvertVar.node sampleExternals) ∧
        (ConvertVar.node sampleExternals n).Children.length = n.Children.length :=
  ⟨by unfold ProcVariable.NoComplex; decide,
   ConvertVar_preserves_shape sampleExternals sampleTree
    (by unfold ProcVariable.NoComplex; decide)⟩

/-- C7: converting a non-null `api.LoadConfig` to a `proc.LoadConfig` and back
gives the same configuration, so the five limits are preserved; a null
configuration is converted to null in both directions. -/
theorem LoadConfig_round_trip (c : LoadConfig) :
    LoadConfigFromProc (LoadConfigToProc (some c)) = some c ∧
    (∃ p, LoadConfigToProc (some c) = some p ∧
      p.FollowPointers = c.FollowPointers ∧ p.MaxVariableRecurse = c.MaxVariableRecurse ∧
      p.MaxStringLen = c.MaxStringLen ∧ p.MaxArrayValues = c.MaxArrayValues ∧
      p.MaxStructFields = c.MaxStructFields) ∧
    LoadConfigToProc none = none ∧ LoadConfigFromProc none = none :=
  ⟨rfl, ⟨_, rfl, rfl, rfl, rfl, rfl, rfl⟩, rfl, rfl⟩

/-- C8: `LoadConfigToProc` sets `MaxMapBuckets` to 0 for every non-null
configuration; `LoadConfigFromProc` gives the same result whatever the
`MaxMapBuckets` of its argument; so converting a `proc.LoadConfig` to the API
and back gives it with `MaxMapBuckets` replaced by 0. -/
theorem LoadConfig_MaxMapBuckets (c : LoadConfig) (p : ProcLoadConfig) :
    (∃ q, LoadConfigToProc (some c) = some q ∧ q.MaxMapBuckets = 0) ∧
    (∀ n : Int, LoadConfigFromProc (some { p with MaxMapBuckets := n }) =
      LoadConfigFromProc (some p)) ∧
    LoadConfigToProc (LoadConfigFromProc (some p)) = some { p with MaxMapBuckets := 0 } :=
  ⟨⟨_, rfl, rfl⟩, fun _ => rfl, rfl⟩

/-- C9: for a variable of kind Float32 or Float64 with a special-value marker,
`convertFloatValue` returns "+Inf", "-Inf" or "NaN" for the marker, at every
bit width and whatever the stored value; and `ConvertVar`, which calls it when
a value is stored, returns that token as the value string whatever the value
stored with the marker. -/
theorem convertFloatValue_special {Val Flt : Type} (lib : Externals Val Flt)
    (v : ProcVariable Val) (hk : v.Kind = .Float32 ∨ v.Kind = .Float64) :
    (v.FloatSpecial = .FloatIsPosInf →
      (∀ sz, convertFloatValue lib v sz = "+Inf") ∧
      ∀ x, ∃ r, ConvertVar lib (some { v with Value := some x }) = .ok r ∧ r.Value = "+Inf") ∧
    (v.FloatSpecial = .FloatIsNegInf →
      (∀ sz, convertFloatValue lib v sz = "-Inf") ∧
      ∀ x, ∃ r, ConvertVar lib (some { v with Value := some x }) = .ok r ∧ r.Value = "-Inf") ∧
    (v.FloatSpecial = .FloatIsNaN →
      (∀ sz, convertFloatValue lib v sz = "NaN") ∧
      ∀ x, ∃ r, ConvertVar lib (some { v with Value := some x }) = .ok r ∧ r.Value = "NaN") := by
  cases v with
  | mk a oa n dt rt k val fs len cap fl base unr le dl cs =>
    simp only at hk
    refine ⟨?_, ?_, ?_⟩ <;> intro hf <;> simp only at hf <;> subst hf <;>
      refine ⟨fun sz => rfl, fun x => ⟨_, rfl, ?_⟩⟩ <;>
      rcases hk with hk | hk <;> subst hk <;>
      simp only [ConvertVar.node] <;> cases unr <;> rfl

theorem convertFloatValue_special_witness :
    ((sampleNaN.Kind = .Float32 ∨ sampleNaN.Kind = .Float64) ∧
      sampleNaN.FloatSpecial = .FloatIsNaN) ∧
    (∀ sz, convertFloatValue sampleExternals sampleNaN sz = "NaN") ∧
    ∀ x, ∃ r, ConvertVar sampleExternals (some { sampleNaN with Value := some x }) = .ok r ∧
      r.Value = "NaN" :=
  ⟨⟨Or.inr rfl, rfl⟩,
   (convertFloatValue_special sampleExternals sampleNaN (Or.inr rfl)).2.2 rfl⟩

/-- C10: for a variable of any kind with no value, `ConvertVar` returns, and
the value string of the record it returns is empty. -/
theorem ConvertVar_no_value {Val Flt : Type} (lib : Externals Val Flt)
    (v : ProcVariable Val) (hv : v.Value = none) :
    ∃ r, ConvertVar lib (some v) = .ok r ∧ r.Value = "" := by
  cases v with
  | mk a oa n dt rt k val fs len cap fl base unr le dl cs =>
    simp only at hv
    subst hv
    refine ⟨_, rfl, ?_⟩
    simp only [ConvertVar.node]
    cases k <;> cases unr <;> rfl

theorem ConvertVar_no_value_witness :
    (sampleVariable .String).Value = none ∧
    ∃ r, ConvertVar sampleExternals (some (sampleVariable .String)) = .ok r ∧ r.Value = "" :=
  ⟨rfl, ConvertVar_no_value sampleExternals (sampleVariable .String) rfl⟩

/-- C11: `ConvertFunction` returns null for a null function; for a non-null
function it returns a non-null record with `Type` and `GoType` 0 and with the
name, entry and optimized flag of the input; so `ConvertLocation` of a
location with a null function gives a null `Function` and the same `PC`,
`File` and `Line`. -/
theorem ConvertFunction_fields (fn : ProcFunction) (pc : Nat) (file : String) (line : Int) :
    ConvertFunction none = none ∧
    (∃ f, ConvertFunction (some fn) = some f ∧ f.Type_ = 0 ∧ f.GoType = 0 ∧
      f.Name_ = fn.Name ∧ f.Value = fn.Entry ∧ f.Optimized = fn.Optimized) ∧
    ConvertLocation { PC := pc, File := file, Line := line, Fn := none } =
      { PC := pc, File := file, Line := line, Function := none } :=
  ⟨rfl, ⟨_, rfl, rfl, rfl, rfl, rfl, rfl⟩, rfl⟩

/-- C12, as the code has it: `ConvertBreakpoint` on a null pointer stops with a
nil dereference and returns no record. -/
theorem ConvertBreakpoint_nil_faults :
    ConvertBreakpoint none = .error .nilDereference ∧
    ¬ ∃ c, ConvertBreakpoint none = .ok c :=
  ⟨rfl, fun ⟨_, h⟩ => Except.noConfusion h⟩

/-- C12, amended: `ConvertBreakpoint` returns a record for every non-null
pointer; a null breakpoint pointer gives a null output without a fault in
`ConvertThread`, which converts the pointer only when the breakpoint state is
active: for a thread whose state is not active (and whose location is resolved
or fails with an error) the conversion returns and the output `Breakpoint` is
null. -/
theorem ConvertThread_inactive_breakpoint (th : ProcThread)
    (hactive : th.CurrentBreakpoint.Active = false)
    (hloc : th.LocationErr ≠ none ∨ th.LocationResult ≠ none) :
    (∀ bp : ProcBreakpoint, ∃ c, ConvertBreakpoint (some bp) = .ok c) ∧
    ∃ r, ConvertThread th = .ok r ∧ r.Breakpoint = none := by
  refine ⟨fun bp => ⟨_, rfl⟩, ?_⟩
  cases th with
  | mk lr le cb g tid =>
    simp only at hactive hloc
    cases le with
    | some e => exact ⟨_, by simp only [ConvertThread, hactive]; rfl, rfl⟩
    | none =>
      cases lr with
      | none => simp at hloc
      | some loc => exact ⟨_, by simp only [ConvertThread, hactive]; rfl, rfl⟩

theorem ConvertThread_inactive_breakpoint_witness :
    sampleThread.CurrentBreakpoint.Active = false ∧
    sampleThread.CurrentBreakpoint.Breakpoint = none ∧
    (∀ bp : ProcBreakpoint, ∃ c, ConvertBreakpoint (some bp) = .ok c) ∧
    ∃ r, ConvertThread sampleThread = .ok r ∧ r.Breakpoint = none :=
  ⟨rfl, rfl, ConvertThread_inactive_breakpoint sampleThread rfl (Or.inr (by simp [sampleThread]))⟩

/-- C13: for a variable marked unreadable `ConvertVar` returns a record whose
`Unreadable` is the text of the error, and whose other fields, the value
string and the converted children among them, are those of the record returned
for the same variable with the marker cleared; for a readable variable
`Unreadable` is the empty string. The method `ConstDescr` is taken not to read
the marker. -/
theorem ConvertVar_unreadable {Val Flt : Type} (lib : Externals Val Flt)
    (v : ProcVariable Val) (e : GoError) (hu : v.Unreadable = some e)
    (hcd : lib.ConstDescr { v with Unreadable := none } = lib.ConstDescr v) :
    ∃ r r0, ConvertVar lib (some v) = .ok r ∧
      ConvertVar lib (some { v with Unreadable := none }) = .ok r0 ∧
      r.Unreadable = e.Error ∧
      r = { r0 with Unreadable := e.Error } ∧
      r.Value = r0.Value ∧ r.Children = r0.Children ∧
      r0.Unreadable = "" ∧
      ∀ w : ProcVariable Val, w.Unreadable = none →
        ∃ s, ConvertVar lib (some w) = .ok s ∧ s.Unreadable = "" := by
  have hreadable : ∀ w : ProcVariable Val, w.Unreadable = none →
      ∃ s, ConvertVar lib (some w) = .ok s ∧ s.Unreadable = "" := by
    intro w hw
    refine ⟨_, rfl, ?_⟩
    cases w with
    | mk a oa n dt rt k val fs len cap fl base unr le dl cs =>
      simp only at hw
      subst hw
      simp only [ConvertVar.node]
      cases k <;> cases val <;> simp <;> first | rfl | (split <;> rfl)
  refine ⟨ConvertVar.node lib v, ConvertVar.node lib { v with Unreadable := none },
    rfl, rfl, ?_⟩
  have hr0 := hreadable { v with Unreadable := none } rfl
  obtain ⟨s, hs, hs0⟩ := hr0
  simp only [ConvertVar, Except.ok.injEq] at hs
  subst hs
  have heq : ConvertVar.node lib v =
      { ConvertVar.node lib { v with Unreadable := none } with Unreadable := e.Error } := by
    cases v with
    | mk a oa n dt rt k val fs len cap fl base unr le dl cs =>
      simp only at hu hcd
      subst hu
      simp only [ConvertVar.node, hcd]
      by_cases h : lib.ConstDescr
          (ProcVariable.mk a oa n dt rt k val fs len cap fl base (some e) le dl cs) = "" <;>
        cases k <;> cases val <;>
        first
        | rfl
        | simp only [h, ne_eq, not_true_eq_false, not_false_eq_true, if_true, if_false]
  refine ⟨?_, heq, ?_, ?_, hs0, hreadable⟩
  · rw [heq]
  · rw [heq]
  · rw [heq]

theorem ConvertVar_unreadable_witness :
    sampleUnreadable.Unreadable = some { Error := "could not read memory" } ∧
    sampleExternals.ConstDescr { sampleUnreadable with Unreadable := none } =
      sampleExternals.ConstDescr sampleUnreadable ∧
    ∃ r r0, ConvertVar sampleExternals (some sampleUnreadable) = .ok r ∧
      ConvertVar sampleExternals (some { sampleUnreadable with Unreadable := none }) = .ok r0 ∧
      r.Unreadable = "could not read memory" ∧
      r = { r0 with Unreadable := "could not read memory" } ∧
      r.Value = r0.Value ∧ r.Children = r0.Children ∧
      r0.Unreadable = "" ∧
      ∀ w : ProcVariable String, w.Unreadable = none →
        ∃ s, ConvertVar sampleExternals (some w) = .ok s ∧ s.Unreadable = "" :=
  ⟨rfl, rfl, ConvertVar_unreadable sampleExternals sampleUnreadable _ rfl rfl⟩

/-- C14: `ConvertRegisters` returns, in increasing slot order, exactly one
register for every slot that has a backing value and that is not classified as
floating point unless the caller opted in, and no other; every register has
the name and string form the architecture gives for its slot, and the slot as
`DwarfNumber`. -/
theorem ConvertRegisters_slots (regs : DwarfRegisters) (arch : Arch) (floatingPoint : Bool) :
    (ConvertRegisters regs arch floatingPoint).map (·.DwarfNumber) =
      ((List.range regs.Regs.length).filter (emittedSlot regs arch floatingPoint)).map
        Int.ofNat ∧
    ((ConvertRegisters regs arch floatingPoint).map (·.DwarfNumber)).Pairwise (· < ·) ∧
    (∀ r ∈ ConvertRegisters regs arch floatingPoint,
      ∃ i reg, i < regs.Regs.length ∧ regs.Reg i = some reg ∧
        (floatingPoint = true ∨ (arch.DwarfRegisterToString i reg).2.1 = false) ∧
        r.DwarfNumber = i ∧ r.Name = (arch.DwarfRegisterToString i reg).1 ∧
        r.Value = (arch.DwarfRegisterToString i reg).2.2) ∧
    (∀ i reg, i < regs.Regs.length → regs.Reg i = some reg →
      (floatingPoint = true ∨ (arch.DwarfRegisterToString i reg).2.1 = false) →
      registerOf arch i reg ∈ ConvertRegisters regs arch floatingPoint) := by
  have hout := ConvertRegisters.foldl_eq regs arch floatingPoint
    (List.range regs.Regs.length) []
  rw [List.nil_append] at hout
  have hnum : (ConvertRegisters regs arch floatingPoint).map (·.DwarfNumber) =
      ((List.range regs.Regs.length).filter (emittedSlot regs arch floatingPoint)).map
        Int.ofNat := by
    unfold ConvertRegisters
    rw [hout]
    generalize List.range regs.Regs.length = l
    induction l with
    | nil => rfl
    | cons i l ih =>
      cases hreg : regs.Reg i with
      | none =>
        have he : emittedSlot regs arch floatingPoint i = false := by
          simp [emittedSlot, hreg]
        simp [List.filterMap_cons, List.filter_cons, hreg, he, ih]
      | some reg =>
        by_cases he : emittedSlot regs arch floatingPoint i
        · have hd : (registerOf arch i reg).DwarfNumber = Int.ofNat i := rfl
          simp [List.filterMap_cons, List.filter_cons, hreg, he, ih, hd]
        · simp [List.filterMap_cons, List.filter_cons, hreg, he, ih]
  refine ⟨hnum, ?_, ?_, ?_⟩
  · rw [hnum]
    have hr : (List.range regs.Regs.length).Pairwise (· < ·) := List.pairwise_lt_range _
    have hf : ((List.range regs.Regs.length).filter
        (emittedSlot regs arch floatingPoint)).Pairwise (· < ·) :=
      List.Pairwise.sublist (List.filter_sublist _) hr
    exact (List.pairwise_map).mpr (hf.imp (fun h => Int.ofNat_lt.mpr h))
  · intro r hr
    unfold ConvertRegisters at hr
    rw [hout, List.mem_filterMap] at hr
    obtain ⟨i, hi, hri⟩ := hr
    cases hreg : regs.Reg i with
    | none => simp [hreg] at hri
    | some reg =>
      rw [hreg] at hri
      by_cases he : emittedSlot regs arch floatingPoint i
      · simp only [he, if_true, Option.some.injEq] at hri
        refine ⟨i, reg, List.mem_range.mp hi, hreg, ?_, ?_, ?_, ?_⟩
        · simp only [emittedSlot, hreg, Bool.or_eq_true, Bool.not_eq_true'] at he
          exact he
        · rw [← hri]; rfl
        · rw [← hri]; rfl
        · rw [← hri]; rfl
      · simp [he] at hri
  · intro i reg hi hreg hfp
    unfold ConvertRegisters
    rw [hout, List.mem_filterMap]
    refine ⟨i, List.mem_range.mpr hi, ?_⟩
    have he : emittedSlot regs arch floatingPoint i = true := by
      simp only [emittedSlot, hreg, Bool.or_eq_true, Bool.not_eq_true']
      exact hfp
    simp [hreg, he]

/-- C15: on sorted non-null input `ConvertBreakpoints` returns one record for
every distinct `LogicalID`, and every record is `ConvertBreakpoint` of the
first input record with its logical id in every field except `Addrs`; its
`HitCount` and `TotalHitCount` are those of that first record alone, whatever
the hit counts of the later records with the same logical id. -/
theorem ConvertBreakpoints_first_instance (bps : List ProcBreakpoint)
    (hs : SortedByLogicalID bps) :
    ∃ r, ConvertBreakpoints (bps.map some) = .ok r ∧
      r.map (·.ID) = (bps.map (·.LogicalID)).dedup ∧
      (∀ c ∈ r, ∃ b c0,
        bps.find? (fun x => decide (x.LogicalID = c.ID)) = some b ∧
        ConvertBreakpoint (some b) = .ok c0 ∧
        c = { c0 with Addrs := c.Addrs } ∧
        c.HitCount = convertHitCount b.HitCount ∧
        c.TotalHitCount = b.TotalHitCount) ∧
      r.map (fun c => (some c.TotalHitCount, some c.HitCount.entries)) =
        (bps.map (·.LogicalID)).dedup.map (fun id =>
          ((bps.find? (fun x => decide (x.LogicalID = id))).map (·.TotalHitCount),
            (bps.find? (fun x => decide (x.LogicalID = id))).map
              (fun b => (convertHitCount b.HitCount).entries))) := by
  obtain ⟨r, hr, hcases⟩ := ConvertBreakpoints_of_sorted bps hs
  refine ⟨r, hr, ?_⟩
  rcases hcases with ⟨hb, hr0⟩ | hreach
  · subst hb; subst hr0; simp
  · have hids := hreach.inv.ids_eq_dedup hs
    have hfirst : ∀ c ∈ r, ∃ b c0,
        bps.find? (fun x => decide (x.LogicalID = c.ID)) = some b ∧
        ConvertBreakpoint (some b) = .ok c0 ∧
        c = { c0 with Addrs := c.Addrs } ∧
        c.HitCount = convertHitCount b.HitCount ∧
        c.TotalHitCount = b.TotalHitCount := by
      intro c hc
      obtain ⟨b, c0, hf, hc0, heq⟩ := hreach.first_instance c hc
      refine ⟨b, c0, hf, hc0, heq, ?_, ?_⟩
      · rw [heq]
        simp only [ConvertBreakpoint, Except.ok.injEq] at hc0
        rw [← hc0]
      · rw [heq]
        simp only [ConvertBreakpoint, Except.ok.injEq] at hc0
        rw [← hc0]
    refine ⟨hids, hfirst, ?_⟩
    rw [← hids]
    apply map_eq_map_ids r
    intro c hc
    obtain ⟨b, c0, hf, _, _, hh, ht⟩ := hfirst c hc
    simp only [hf, Option.map_some', hh, ht]

theorem ConvertBreakpoints_first_instance_witness :
    SortedByLogicalID sampleHits ∧
    ∃ r, ConvertBreakpoints (sampleHits.map some) = .ok r ∧
      r.map (·.ID) = [1, 2] ∧
      (∀ c ∈ r, ∃ b c0,
        sampleHits.find? (fun x => decide (x.LogicalID = c.ID)) = some b ∧
        ConvertBreakpoint (some b) = .ok c0 ∧
        c = { c0 with Addrs := c.Addrs } ∧
        c.HitCount = convertHitCount b.HitCount ∧
        c.TotalHitCount = b.TotalHitCount) ∧
      r.map (fun c => (some c.TotalHitCount, some c.HitCount.entries)) =
        [(some 3, some [⟨"0", 3⟩]), (some 7, some [⟨"4", 7⟩])] :=
  ⟨by decide, ConvertBreakpoints_first_instance sampleHits (by decide)⟩

/-- C16: for a non-null physical breakpoint the `HitCount` of the record
`ConvertBreakpoint` returns has, for every context index of the input map, the
input count under the decimal string of the index, and no other key; distinct
indices have distinct strings, so it has as many entries as the input map. -/
theorem ConvertBreakpoint_HitCount (bp : ProcBreakpoint) :
    ∃ c, ConvertBreakpoint (some bp) = .ok c ∧
      (∀ k : Int, c.HitCount.lookup (Itoa k) = bp.HitCount.lookup k) ∧
      (∀ k ∈ bp.HitCount.keys, ∃ n, bp.HitCount.lookup k = some n ∧
        c.HitCount.lookup (Itoa k) = some n) ∧
      (∀ s : String, s ∈ c.HitCount.keys ↔ ∃ k ∈ bp.HitCount.keys, s = Itoa k) ∧
      (∀ j k : Int, Itoa j = Itoa k → j = k) ∧
      c.HitCount.keys.length = bp.HitCount.keys.length := by
  refine ⟨_, rfl, convertHitCount_lookup bp.HitCount, ?_, convertHitCount_keys bp.HitCount,
    Itoa_injective, convertHitCount_length bp.HitCount⟩
  intro k hk
  have hsome : (bp.HitCount.lookup k).isSome :=
    AList.lookup_isSome.mpr (AList.mem_keys.mpr hk)
  obtain ⟨n, hn⟩ := Option.isSome_iff_exists.mp hsome
  exact ⟨n, hn, by rw [← hn]; exact convertHitCount_lookup bp.HitCount k⟩

/-- C17: for a thread whose location resolution fails, the failure changes
nothing but the location: `ConvertThread` gives what it gives for the same
thread with a resolved location, with `PC` 0, `File` "", `Line` 0 and a null
`Function`, so the error is neither a fault nor propagated. With a breakpoint
state that holds a breakpoint when it is active, `ConvertThread` returns, and
`ID`, `GoroutineID` and `Breakpoint` are those of the output with a resolved
location. The output `Breakpoint` is null whenever the breakpoint state is not
active. -/
theorem ConvertThread_location_failure (th : ProcThread) (e : GoError)
    (herr : th.LocationErr = some e) :
    (∀ loc : ProcLocation,
      ConvertThread th =
        Except.map (fun r => { r with PC := 0, File := "", Line := 0, Function := none })
          (ConvertThread { th with LocationResult := some loc, LocationErr := none })) ∧
    ((th.CurrentBreakpoint.Active = true → th.CurrentBreakpoint.Breakpoint ≠ none) →
      ∃ r, ConvertThread th = .ok r ∧
        r.PC = 0 ∧ r.File = "" ∧ r.Line = 0 ∧ r.Function = none ∧
        r.ID = th.ThreadID ∧
        r.GoroutineID = (match th.G with | some g => g.ID | none => 0) ∧
        (th.CurrentBreakpoint.Active = true →
          ∃ b c, th.CurrentBreakpoint.Breakpoint = some b ∧
            ConvertBreakpoint (some b) = .ok c ∧ r.Breakpoint = some c) ∧
        (∀ loc : ProcLocation, ∃ r2,
          ConvertThread { th with LocationResult := some loc, LocationErr := none } = .ok r2 ∧
          r2.ID = r.ID ∧ r2.GoroutineID = r.GoroutineID ∧ r2.Breakpoint = r.Breakpoint)) ∧
    (th.CurrentBreakpoint.Active = false →
      ∃ r, ConvertThread th = .ok r ∧ r.Breakpoint = none) ∧
    (∀ (th2 : ProcThread) (r2 : Thread), ConvertThread th2 = .ok r2 →
      th2.CurrentBreakpoint.Active = false → r2.Breakpoint = none) := by
  have hgen : ∀ (th2 : ProcThread) (r2 : Thread), ConvertThread th2 = .ok r2 →
      th2.CurrentBreakpoint.Active = false → r2.Breakpoint = none := by
    intro th2 r2 h2 ha
    cases th2 with
    | mk lr le cb g tid =>
      simp only at ha
      cases le with
      | some e2 =>
        simp only [ConvertThread, ha] at h2
        simp only [Bool.false_eq_true, if_false, Except.ok.injEq] at h2
        rw [← h2]
      | none =>
        cases lr with
        | none => simp [ConvertThread] at h2
        | some loc =>
          simp only [ConvertThread, ha] at h2
          simp only [Bool.false_eq_true, if_false, Except.ok.injEq] at h2
          rw [← h2]
  cases th with
  | mk lr le cb g tid =>
    simp only at herr
    subst herr
    cases cb with
    | mk bp active =>
      cases active with
      | false =>
        exact ⟨fun loc => rfl,
          fun _ => ⟨_, rfl, rfl, rfl, rfl, rfl, rfl, rfl, fun h => by simp at h,
            fun loc => ⟨_, rfl, rfl, rfl, rfl⟩⟩,
          fun _ => ⟨_, rfl, rfl⟩, hgen⟩
      | true =>
        cases bp with
        | none =>
          exact ⟨fun loc => rfl, fun hbp => absurd rfl (hbp rfl), fun h => by simp at h, hgen⟩
        | some b =>
          exact ⟨fun loc => rfl,
            fun _ => ⟨_, rfl, rfl, rfl, rfl, rfl, rfl, rfl, fun _ => ⟨b, _, rfl, rfl, rfl⟩,
              fun loc => ⟨_, rfl, rfl, rfl, rfl⟩⟩,
            fun h => by simp at h, hgen⟩

theorem ConvertThread_location_failure_witness :
    sampleLostThread.LocationErr = some { Error := "could not find location" } ∧
    (∀ loc : ProcLocation,
      ConvertThread sampleLostThread =
        Except.map (fun r => { r with PC := 0, File := "", Line := 0, Function := none })
          (ConvertThread
            { sampleLostThread with LocationResult := some loc, LocationErr := none })) ∧
    ∃ r, ConvertThread sampleLostThread = .ok r ∧
      r.PC = 0 ∧ r.File = "" ∧ r.Line = 0 ∧ r.Function = none ∧
      r.ID = 1002 ∧
      r.GoroutineID = 0 ∧
      (sampleLostThread.CurrentBreakpoint.Active = true →
        ∃ b c, sampleLostThread.CurrentBreakpoint.Breakpoint = some b ∧
          ConvertBreakpoint (some b) = .ok c ∧ r.Breakpoint = some c) ∧
      (∀ loc : ProcLocation, ∃ r2,
        ConvertThread
          { sampleLostThread with LocationResult := some loc, LocationErr := none } = .ok r2 ∧
        r2.ID = r.ID ∧ r2.GoroutineID = r.GoroutineID ∧ r2.Breakpoint = r.Breakpoint) :=
  ⟨rfl, (ConvertThread_location_failure sampleLostThread _ rfl).1,
    (ConvertThread_location_failure sampleLostThread _ rfl).2.1
      (fun _ => by simp [sampleLostThread])⟩

/-- C18: `prettyTypeName` returns the empty string for a null type; for a type
with a non-empty explicit name it returns that name, also when the string form
of the type is "*void"; otherwise it returns "unsafe.Pointer" when the string
form is exactly "*void" and the string form unchanged in every other case.
`ConvertVar` stores it for the declared and for the real type. -/
theorem prettyTypeName_cases (typ : GodwarfType) :
    prettyTypeName none = "" ∧
    (typ.CommonName ≠ "" → prettyTypeName (some typ) = typ.CommonName) ∧
    prettyTypeName (some { CommonName := "unsafe.T", Str := "*void" }) = "unsafe.T" ∧
    (typ.CommonName = "" → typ.Str = "*void" → prettyTypeName (some typ) = "unsafe.Pointer") ∧
    (typ.CommonName = "" → typ.Str ≠ "*void" → prettyTypeName (some typ) = typ.Str) ∧
    (∀ (Val Flt : Type) (lib : Externals Val Flt) (v : ProcVariable Val),
      (ConvertVar.node lib v).Type_ = prettyTypeName v.DwarfType ∧
      (ConvertVar.node lib v).RealType = prettyTypeName v.RealType) := by
  refine ⟨rfl, ?_, by decide, ?_, ?_, ?_⟩
  · intro h
    simp [prettyTypeName, h]
  · intro h1 h2
    simp [prettyTypeName, h1, h2]
  · intro h1 h2
    simp [prettyTypeName, h1, h2]
  · intro Val Flt lib v
    cases v with
    | mk a oa n dt rt k val fs len cap fl base unr le dl cs =>
      simp only [ConvertVar.node]
      cases k <;> cases val <;> cases unr <;> simp <;> split <;> exact ⟨rfl, rfl⟩

/-- C19: when `ConvertBreakpoints` returns, every record has a non-empty
`Addrs` whose first element is its `Addr`; the record `ConvertBreakpoint`
returns has `Addrs` equal to the list of its `Addr` alone. -/
theorem ConvertBreakpoints_addrs_head (bps : List (Option ProcBreakpoint))
    (r : List Breakpoint) (h : ConvertBreakpoints bps = .ok r) :
    (∀ c ∈ r, c.Addrs ≠ [] ∧ c.Addrs.head? = some c.Addr) ∧
    (∀ (bp : ProcBreakpoint) (c : Breakpoint),
      ConvertBreakpoint (some bp) = .ok c → c.Addrs = [c.Addr]) := by
  constructor
  · obtain ⟨l, _, _, hcases⟩ := ConvertBreakpoints_returns bps r h
    rcases hcases with ⟨_, hr0⟩ | hreach
    · subst hr0
      intro c hc
      simp at hc
    · intro c hc
      obtain ⟨t, ht⟩ := hreach.addrs_head c hc
      rw [ht]
      exact ⟨List.cons_ne_nil _ _, rfl⟩
  · intro bp c hc
    rw [ConvertBreakpoint_Addrs hc, ConvertBreakpoint_Addr hc]

theorem ConvertBreakpoints_addrs_head_witness :
    ConvertBreakpoints [some (physical 4 100), some (physical 4 108)] = .ok [sampleRecord] ∧
    (∀ c ∈ [sampleRecord], c.Addrs ≠ [] ∧ c.Addrs.head? = some c.Addr) ∧
    (∀ (bp : ProcBreakpoint) (c : Breakpoint),
      ConvertBreakpoint (some bp) = .ok c → c.Addrs = [c.Addr]) :=
  ⟨rfl, ConvertBreakpoints_addrs_head [some (physical 4 100), some (physical 4 108)]
    [sampleRecord] rfl⟩

/-- C20: when `ConvertBreakpoints` returns, the `Addrs` of the records put end
to end are the `Addr` of the input records in input order, so the lengths of
the `Addrs` add up to the length of the input and there are no more records
than input records; no input gives the nil slice. -/
theorem ConvertBreakpoints_addrs_concat (bps : List (Option ProcBreakpoint))
    (r : List Breakpoint) (h : ConvertBreakpoints bps = .ok r) :
    (∃ l : List ProcBreakpoint, bps = l.map some ∧
      (r.map (·.Addrs)).flatten = l.map (·.Addr)) ∧
    (r.map (fun c => c.Addrs.length)).sum = bps.length ∧
    r.length ≤ bps.length ∧
    ConvertBreakpoints [] = .ok [] := by
  obtain ⟨l, hl, _, hcases⟩ := ConvertBreakpoints_returns bps r h
  have hflat : (r.map (·.Addrs)).flatten = l.map (·.Addr) ∧ r.length ≤ l.length := by
    rcases hcases with ⟨hl0, hr0⟩ | hreach
    · subst hl0; subst hr0; simp
    · exact hreach.addrs_flatten
  have hlen : bps.length = l.length := by rw [hl, List.length_map]
  refine ⟨⟨l, hl, hflat.1⟩, ?_, by rw [hlen]; exact hflat.2, rfl⟩
  have := congrArg List.length hflat.1
  rw [List.length_flatten, List.length_map, List.map_map] at this
  rw [hlen, ← this]
  rfl

theorem ConvertBreakpoints_addrs_concat_witness :
    ConvertBreakpoints [some (physical 4 100), some (physical 4 108)] = .ok [sampleRecord] ∧
    (∃ l : List ProcBreakpoint,
      [some (physical 4 100), some (physical 4 108)] = l.map some ∧
      ([sampleRecord].map (·.Addrs)).flatten = l.map (·.Addr)) ∧
    ([sampleRecord].map (fun c => c.Addrs.length)).sum = 2 ∧
    [sampleRecord].length ≤ 2 ∧
    ConvertBreakpoints [] = .ok [] :=
  ⟨rfl, ConvertBreakpoints_addrs_concat [some (physical 4 100), some (physical 4 108)]
    [sampleRecord] rfl⟩

end Delve
